import Mathlib

/-!
# Buffered connection stream and protocol state machine of `common-linux.c`

A shallow embedding of `recv_exactly`, `send_exactly`, `drain_exactly`,
`handle_ret` and `drive_machine`, with the socket as explicit state, and of
`try_lock` and `unlock` with the worker threads as an interleaving of steps.

Conventions of the embedding.

* A byte is a natural number (below 256 on every real input).
* `conn->buf` is the memory that starts at `&conn->buf[0]`, a function from
  offsets to bytes. Offsets `0 .. BUFSIZE - 1` are the array; larger offsets
  are whatever lies behind it. Nothing in the program writes there, and only
  the `memmove` of `recv_exactly` can read there.
* `conn->header` is the 24 bytes of the `binary_header_t` overlay; a field is
  read and written at its offset, multi-byte fields in the byte order of a
  little-endian host (the code swaps them with `__builtin_bswap16/32`).
* `buf_head` and `buf_tail` are `int` in C and natural numbers here: they
  start at 0 and `drive_machine_ok` shows `buf_head ≤ buf_tail ≤ BUFSIZE`
  in every state the program reaches, so that no C operation on them wraps or
  goes negative.
* A failed `assert` ends the process; it is the result `aborted line`. The
  sources include `<assert.h>` and do not define `NDEBUG`.
* Loops carry a fuel argument that the caller sets to the loop's own bound.
  A loop that still wants to iterate without fuel yields `nofuel`;
  `recv_fill_fuel`, `drain_loop_fuel`, `send_loop_fuel` and
  `drive_machine_fuel` show that this never happens.
* The socket carries a log of the headers `recv_exactly` copied into
  `conn->header` and of the buffers passed to `send_exactly`. The log is
  written, never read: no result of the program depends on it.
* Worker threads are an interleaving of atomic steps on shared state:
  `__sync_bool_compare_and_swap` is one step, as the builtin promises, and so
  are the store of `unlock` and a call of `drive_machine`; every step sees the
  stores of the steps before it. Of the loop body of `tcp_thread_main` the
  branch of lines 330-335 is embedded; the `close` of line 328 on
  `EPOLLHUP | EPOLLERR` takes no lock and is left out.
-/

namespace Servers

/-! ## Constants and types -/

/-- The `BUFSIZE` of line 18. -/
def BUFSIZE : Nat := 2048

/-- The value of `sizeof(conn->header)`: the fixed 24-byte header. -/
def HEADER_SIZE : Nat := 24

/-- Modelled from the spec: `memcached.h` is not among the sources. The two
opcode constants it declares are taken as parameters of the state machine. -/
structure memcached_h where
  CMD_GET : Nat
  CMD_SET : Nat

/-- Modelled from the spec: `enum conn_state` is declared in `common.h`, which
is not among the sources; these are the six states the code and the spec name.
With them the `default: assert(0)` arm of `drive_machine` cannot be taken. -/
inductive conn_state
  | STATE_HEADER
  | STATE_EXTRA
  | STATE_KEY
  | STATE_VALUE
  | STATE_PROC
  | STATE_RESPONSE
  deriving DecidableEq

/-- The values of `errno` that `handle_ret` tells apart. -/
inductive Errno
  | EAGAIN
  | EBADF
  | EPIPE
  | ECONNRESET
  | EOTHER (code : Nat)
  deriving DecidableEq

/-- What the next `recv` on the socket will find. -/
inductive RecvEvent
  | data (bytes : List Nat)
  | shutdown
  | error (e : Errno)
  deriving DecidableEq

/-- What the next `send` on the socket will find: room for `k` bytes, or an error. -/
inductive SendEvent
  | room (k : Nat)
  | error (e : Errno)
  deriving DecidableEq

/-- What the program did with a header, in the order it did it: `copied h`
when `recv_exactly` has copied the 24 bytes `h` into `conn->header`,
`offered b` when `send_exactly` is called with the bytes `b`. -/
inductive IoEvent
  | copied (h : List Nat)
  | offered (b : List Nat)
  deriving DecidableEq

/-- The socket behind `conn->fd`.
`rx` scripts the results of the coming `recv` calls; with nothing scripted a
`recv` would block. `tx` scripts the coming `send` calls; with nothing scripted
the kernel takes all that is offered. `sent` is every byte the kernel took,
in order. `closed` records `close(conn->fd)`. `log` records the headers
copied in and the buffers passed to `send_exactly`; nothing reads it. -/
structure Sock where
  rx : List RecvEvent
  tx : List SendEvent
  sent : List Nat
  closed : Bool
  log : List IoEvent
  deriving DecidableEq

/-- The result of one `recv` system call. -/
inductive RecvRet
  | bytes (bs : List Nat)
  | zero
  | fail (e : Errno)

/-- The result of one `send` system call. -/
inductive SendRet
  | count (n : Nat)
  | zero
  | fail (e : Errno)

/-- The result of a call of `recv_exactly`, `send_exactly` or `drain_exactly`:
the three values they return, or the call did not return (`aborted`: an
`assert` of that line failed). `nofuel` is the fuel marker. -/
inductive Res
  | one
  | zero
  | minus_one (errno : Errno)
  | aborted (line : Nat)
  | nofuel
  deriving DecidableEq

/-- How a call of `drive_machine` ends. -/
inductive Exit
  | returned
  | aborted (line : Nat)
  | nofuel
  deriving DecidableEq

/-- The `struct conn` of lines 20-30, without `fd` (the socket is passed
along) and without `lock` (only present under
`CONFIG_REGISTER_FD_TO_ALL_EPOLLS`, and touched by `try_lock` and `unlock`
alone; it is a field of `Shared`). -/
structure conn where
  state : conn_state
  header : List Nat
  buf_head : Nat
  buf_tail : Nat
  buf : Nat → Nat

/-! ## The socket -/

/-- The call `recv(fd, p, len, 0)`: the bytes received, written by the caller. -/
def recv (s : Sock) (len : Nat) : RecvRet × Sock :=
  match s.rx with
  | [] => (.fail .EAGAIN, s)
  | .data bs :: rest =>
    let s1 := { s with rx := if bs.drop len = [] then rest else .data (bs.drop len) :: rest }
    if bs.take len = [] then (.zero, s1) else (.bytes (bs.take len), s1)
  | .shutdown :: rest => (.zero, { s with rx := rest })
  | .error e :: rest => (.fail e, { s with rx := rest })

/-- The call `send(fd, p, len, MSG_NOSIGNAL)` with the `len` bytes `bs` at `p`. -/
def send (s : Sock) (bs : List Nat) : SendRet × Sock :=
  match s.tx with
  | [] => if bs = [] then (.zero, s) else (.count bs.length, { s with sent := s.sent ++ bs })
  | .room k :: rest =>
    if bs.take k = [] then (.zero, { s with tx := rest })
    else (.count (bs.take k).length, { s with tx := rest, sent := s.sent ++ bs.take k })
  | .error e :: rest => (.fail e, { s with tx := rest })

/-- The call `close(conn->fd)`. -/
def close (s : Sock) : Sock := { s with closed := true }

/-- A delivery: the peer's bytes `d` become readable after all that is scripted. -/
def deliver (s : Sock) (d : List Nat) : Sock := { s with rx := s.rx ++ [.data d] }

/-! ## Memory -/

/-- The call `memmove(&m[dst], &m[src], n)`. -/
def memmove (m : Nat → Nat) (dst src n : Nat) : Nat → Nat :=
  fun i => if dst ≤ i ∧ i < dst + n then m (src + (i - dst)) else m i

/-- The bytes `bs` stored at `&m[off]` (what `recv` does with its buffer). -/
def write_at (m : Nat → Nat) (off : Nat) (bs : List Nat) : Nat → Nat :=
  fun i => if off ≤ i ∧ i < off + bs.length then bs.getD (i - off) 0 else m i

/-- The `n` bytes at `&m[off]` (what `memcpy` copies out). -/
def read_at (m : Nat → Nat) (off n : Nat) : List Nat :=
  (List.range n).map (fun i => m (off + i))

/-! ## The header overlay -/

/-- The value of `__builtin_bswap16`. -/
def bswap16 (x : Nat) : Nat := (x % 256) * 256 + x / 256 % 256

/-- The value of `__builtin_bswap32`. -/
def bswap32 (x : Nat) : Nat :=
  (x % 256) * 16777216 + (x / 256 % 256) * 65536 + (x / 65536 % 256) * 256 + x / 16777216 % 256

/-- A `uint16_t` field at offset `off`, as a little-endian host loads it. -/
def load16 (h : List Nat) (off : Nat) : Nat := h.getD off 0 + 256 * h.getD (off + 1) 0

/-- A `uint32_t` field at offset `off`, as a little-endian host loads it. -/
def load32 (h : List Nat) (off : Nat) : Nat :=
  h.getD off 0 + 256 * h.getD (off + 1) 0 + 65536 * h.getD (off + 2) 0
    + 16777216 * h.getD (off + 3) 0

/-- A `uint16_t` field at offset `off`, as a little-endian host stores it. -/
def store16 (h : List Nat) (off v : Nat) : List Nat :=
  (h.set off (v % 256)).set (off + 1) (v / 256 % 256)

/-- A `uint32_t` field at offset `off`, as a little-endian host stores it. -/
def store32 (h : List Nat) (off v : Nat) : List Nat :=
  (((h.set off (v % 256)).set (off + 1) (v / 256 % 256)).set (off + 2) (v / 65536 % 256)).set
    (off + 3) (v / 16777216 % 256)

/-- Modelled from the spec: `binary_header_t` is declared in `memcached.h`,
which is not among the sources. The layout is the one of the spec, in wire
order: `magic:u8, opcode:u8, key_len:u16, extra_len:u8, data_type:u8,
status:u16, body_len:u32, opaque:u32, cas:u64`. This is `header.magic`. -/
def hdr_magic (h : List Nat) : Nat := h.getD 0 0

/-- The field `header.opcode` (offset 1). -/
def hdr_opcode (h : List Nat) : Nat := h.getD 1 0

/-- The field `header.key_len` (offset 2), as the host holds it. -/
def hdr_key_len (h : List Nat) : Nat := load16 h 2

/-- The field `header.extra_len` (offset 4). -/
def hdr_extra_len (h : List Nat) : Nat := h.getD 4 0

/-- The field `header.body_len` (offset 8), as the host holds it. -/
def hdr_body_len (h : List Nat) : Nat := load32 h 8

/-- The third argument of `drain_exactly` at line 163:
`__builtin_bswap32(body_len) - __builtin_bswap16(key_len) - extra_len`,
computed in `uint32_t` and widened to `size_t`. -/
def value_len (h : List Nat) : Nat :=
  (((bswap32 (hdr_body_len h) : Int) - (bswap16 (hdr_key_len h) : Int)
      - (hdr_extra_len h : Int)) % 4294967296).toNat

/-- Lines 174-176: `magic = 0x81`, `status = __builtin_bswap16(1)`, `body_len = 0`. -/
def set_response (h : List Nat) : List Nat :=
  store32 (store16 (h.set 0 0x81) 6 (bswap16 1)) 8 0

/-! ## The buffered connection stream -/

/-- The function `avail_bytes` (lines 40-43). -/
def avail_bytes (c : conn) : Nat := c.buf_tail - c.buf_head

/-- The `while` loop of `recv_exactly` (lines 54-60). -/
def recv_fill : Nat → conn → Sock → Nat → Res × conn × Sock
  | 0, c, s, size => if c.buf_tail < size then (.nofuel, c, s) else (.one, c, s)
  | fuel + 1, c, s, size =>
    if c.buf_tail < size then
      if BUFSIZE - c.buf_tail > 0 then
        match recv s (BUFSIZE - c.buf_tail) with
        | (.bytes bs, s1) =>
          recv_fill fuel
            { c with buf := write_at c.buf c.buf_tail bs, buf_tail := c.buf_tail + bs.length }
            s1 size
        | (.zero, s1) => (.zero, c, s1)
        | (.fail e, s1) => (.minus_one e, c, s1)
      else (.aborted 55, c, s)
    else (.one, c, s)

/-- The block of lines 49-53: the unread bytes are moved to the front. -/
def compact (c : conn) : conn :=
  if c.buf_head ≠ 0 then
    { c with
      buf := memmove c.buf 0 c.buf_head c.buf_head
      buf_tail := c.buf_tail - c.buf_head
      buf_head := 0 }
  else c

/-- What a call of `recv_exactly` leaves: its result, the connection, the
socket, and the `size` bytes copied to the caller (none unless it returns 1). -/
structure RecvExactly where
  ret : Res
  conn : conn
  sock : Sock
  out : List Nat

/-- The function `recv_exactly` (lines 45-66). -/
def recv_exactly (c : conn) (s : Sock) (size : Nat) : RecvExactly :=
  if avail_bytes c < size then
    let c1 := compact c
    match recv_fill (size - c1.buf_tail) c1 s size with
    | (.one, c2, s2) =>
      ⟨.one, { c2 with buf_head := c2.buf_head + size }, s2, read_at c2.buf c2.buf_head size⟩
    | (r, c2, s2) => ⟨r, c2, s2, []⟩
  else
    ⟨.one, { c with buf_head := c.buf_head + size }, s, read_at c.buf c.buf_head size⟩

/-- The `while` loop of `send_exactly` (lines 74-79); `part` is the count
already sent. -/
def send_loop : Nat → Sock → List Nat → Nat → Res × Sock
  | 0, s, bs, part => if part < bs.length then (.nofuel, s) else (.one, s)
  | fuel + 1, s, bs, part =>
    if part < bs.length then
      match send s (bs.drop part) with
      | (.count n, s1) => send_loop fuel s1 bs (part + n)
      | (.zero, s1) => (.zero, s1)
      | (.fail e, s1) => (.minus_one e, s1)
    else (.one, s)

/-- The function `send_exactly` (lines 68-82), called with the bytes `bs`;
the call is logged. -/
def send_exactly (s : Sock) (bs : List Nat) : Res × Sock :=
  send_loop bs.length { s with log := s.log ++ [.offered bs] } bs 0

/-- The `while` loop of `drain_exactly` (lines 96-102); the bytes received
go to the scratch array and are dropped. The `assert(left > 0)` of line 97
holds by the loop condition. -/
def drain_loop : Nat → Sock → Nat → Res × Sock
  | 0, s, left => if left ≠ 0 then (.nofuel, s) else (.one, s)
  | fuel + 1, s, left =>
    if left ≠ 0 then
      match recv s left with
      | (.bytes bs, s1) => drain_loop fuel s1 (left - bs.length)
      | (.zero, s1) => (.zero, s1)
      | (.fail e, s1) => (.minus_one e, s1)
    else (.one, s)

/-- The function `drain_exactly` (lines 84-108). -/
def drain_exactly (c : conn) (s : Sock) (size : Nat) : Res × conn × Sock :=
  if avail_bytes c < size then
    let left := size - avail_bytes c
    let c1 := { c with buf_head := 0, buf_tail := 0 }
    if left < 2048 then
      let r := drain_loop left s left
      (r.1, c1, r.2)
    else (.aborted 95, c1, s)
  else (.one, { c with buf_head := c.buf_head + size }, s)

/-! ## The protocol state machine -/

/-- The function `handle_ret` (lines 110-134) on the result of a call.
`none` is `return 0`; `some .returned` is `return 1` (the caller returns);
`some (.aborted 131)` is the failed `assert(ret == 1)`, reached after the
`default:` arm. A call that did not return is passed on as it is. -/
def handle_ret (s : Sock) (ret : Res) : Option Exit × Sock :=
  match ret with
  | .zero => (some .returned, close s)
  | .minus_one .EAGAIN => (some .returned, s)
  | .minus_one .EBADF => (some .returned, s)
  | .minus_one .EPIPE => (some .returned, close s)
  | .minus_one .ECONNRESET => (some .returned, close s)
  | .minus_one (.EOTHER _) => (some (.aborted 131), s)
  | .one => (none, s)
  | .aborted line => (some (.aborted line), s)
  | .nofuel => (some .nofuel, s)

/-- What a call of `drive_machine` leaves. -/
structure Run where
  conn : conn
  sock : Sock
  exit : Exit

/-- Where a pass through the `switch` ends: the function is left (`done`), or
line 184 jumps back to `next_request` (`again`). -/
inductive Pass
  | done (r : Run)
  | again (c : conn) (s : Sock)

/-- Modelled from the spec: `process_request` is defined outside the sources;
it takes no argument and returns nothing, and the spec calls it a stub. It
leaves the connection and the socket alone. -/
def process_request (c : conn) (s : Sock) : conn × Sock := (c, s)

/-- Lines 178-185, `case STATE_RESPONSE`. -/
def from_response (c : conn) (s : Sock) : Pass :=
  let r := send_exactly s c.header
  match handle_ret r.2 r.1 with
  | (some e, s1) => .done ⟨c, s1, e⟩
  | (none, s1) =>
    let c1 := { c with state := .STATE_HEADER }
    if avail_bytes c1 ≥ HEADER_SIZE then .again c1 s1 else .done ⟨c1, s1, .returned⟩

/-- Lines 171-177, `case STATE_PROC`, falling through. -/
def from_proc (c : conn) (s : Sock) : Pass :=
  let p := process_request c s
  from_response
    { p.1 with state := .STATE_RESPONSE, header := set_response p.1.header } p.2

/-- Lines 161-170, `case STATE_VALUE`, falling through. -/
def from_value (P : memcached_h) (c : conn) (s : Sock) : Pass :=
  if hdr_opcode c.header = P.CMD_SET then
    let r := drain_exactly c s (value_len c.header)
    match handle_ret r.2.2 r.1 with
    | (some e, s1) => .done ⟨r.2.1, s1, e⟩
    | (none, s1) => from_proc { r.2.1 with state := .STATE_PROC } s1
  else if hdr_opcode c.header = P.CMD_GET then
    from_proc { c with state := .STATE_PROC } s
  else .done ⟨c, s, .aborted 167⟩

/-- Lines 155-160, `case STATE_KEY`, falling through. -/
def from_key (P : memcached_h) (c : conn) (s : Sock) : Pass :=
  let r := drain_exactly c s (bswap16 (hdr_key_len c.header))
  match handle_ret r.2.2 r.1 with
  | (some e, s1) => .done ⟨r.2.1, s1, e⟩
  | (none, s1) => from_value P { r.2.1 with state := .STATE_VALUE } s1

/-- Lines 149-154, `case STATE_EXTRA`, falling through. -/
def from_extra (P : memcached_h) (c : conn) (s : Sock) : Pass :=
  let r := drain_exactly c s (hdr_extra_len c.header)
  match handle_ret r.2.2 r.1 with
  | (some e, s1) => .done ⟨r.2.1, s1, e⟩
  | (none, s1) => from_key P { r.2.1 with state := .STATE_KEY } s1

/-- Lines 141-148, `case STATE_HEADER` and the label `next_request`, falling
through. The header is overwritten only when `recv_exactly` reaches its
`memcpy`; the bytes copied are logged. -/
def from_header (P : memcached_h) (c : conn) (s : Sock) : Pass :=
  let r := recv_exactly c s HEADER_SIZE
  match handle_ret r.sock r.ret with
  | (some e, s1) => .done ⟨r.conn, s1, e⟩
  | (none, s1) =>
    let c1 := { r.conn with header := r.out }
    let s2 := { s1 with log := s1.log ++ [.copied r.out] }
    if hdr_magic c1.header = 0x80 then from_extra P { c1 with state := .STATE_EXTRA } s2
    else .done ⟨c1, s2, .aborted 146⟩

/-- The passes that follow a `goto next_request`. -/
def drive_loop (P : memcached_h) : Nat → conn → Sock → Run
  | 0, c, s => ⟨c, s, .nofuel⟩
  | fuel + 1, c, s =>
    match from_header P c s with
    | .done r => r
    | .again c1 s1 => drive_loop P fuel c1 s1

/-- The `switch` of `drive_machine` entered at the case of `conn->state`. -/
def enter (P : memcached_h) (c : conn) (s : Sock) : Pass :=
  match c.state with
  | .STATE_HEADER => from_header P c s
  | .STATE_EXTRA => from_extra P c s
  | .STATE_KEY => from_key P c s
  | .STATE_VALUE => from_value P c s
  | .STATE_PROC => from_proc c s
  | .STATE_RESPONSE => from_response c s

/-- The function `drive_machine` (lines 136-189). A jump to `next_request` is
taken with at least 24 unread bytes and every pass uses up at least 24 of
them, so the unread count bounds the number of passes. -/
def drive_machine (P : memcached_h) (c : conn) (s : Sock) : Run :=
  match enter P c s with
  | .done r => r
  | .again c1 s1 => drive_loop P (avail_bytes c1) c1 s1

/-- Lines 316-323 of `tcp_thread_main`: the connection `malloc` returns, with
`state`, `buf_head` and `buf_tail` set. `hmem` and `bmem` are what the
allocation holds where the header and the buffer lie. -/
def accept_conn (hmem bmem : Nat → Nat) : conn :=
  { state := .STATE_HEADER
    header := read_at hmem 0 HEADER_SIZE
    buf_head := 0
    buf_tail := 0
    buf := bmem }

/-- A socket on which nothing has happened yet. -/
def idle : Sock := { rx := [], tx := [], sent := [], closed := false, log := [] }

/-! ## Inputs and properties -/

/-- The connection and the socket a pass is left with. -/
def Pass.conn : Pass → conn
  | .done r => r.conn
  | .again c _ => c

/-- The socket a pass is left with. -/
def Pass.sock : Pass → Sock
  | .done r => r.sock
  | .again _ s => s

/-- A pass ends well: a jump to `next_request` is taken in `STATE_HEADER`
with a whole header unread, and a pass that is left did not run out of fuel. -/
def Pass.settled : Pass → Prop
  | .again c1 _ => c1.state = .STATE_HEADER ∧ HEADER_SIZE ≤ avail_bytes c1
  | .done r => r.exit ≠ .nofuel

/-- What the end of `drive_machine` makes of a pass. -/
def Pass.finish (P : memcached_h) : Pass → Run
  | .done r => r
  | .again c1 s1 => drive_loop P (avail_bytes c1) c1 s1

/-- The cursor invariant of the data model: `0 ≤ head ≤ tail ≤ capacity`. -/
def cursor_ok (c : conn) : Prop :=
  0 ≤ c.buf_head ∧ c.buf_head ≤ c.buf_tail ∧ c.buf_tail ≤ BUFSIZE

/-- The unread bytes: the buffer from `buf_head` up to `buf_tail`. -/
def unread (c : conn) : List Nat := read_at c.buf c.buf_head (avail_bytes c)

/-- The cursors after bytes were discarded: the buffer is as it was, and the
cursors were reset to 0 or `buf_head` moved forward inside the unread part. -/
def Drained (c c1 : conn) : Prop :=
  c1.buf = c.buf ∧
    ((c1.buf_head = 0 ∧ c1.buf_tail = 0) ∨
      (c1.buf_tail = c.buf_tail ∧ c.buf_head ≤ c1.buf_head ∧
        (c1.buf_head ≤ c.buf_tail ∨ c1.buf_head = c.buf_head)))

/-- What every pass that starts behind the header read keeps: the buffer
and cursors are `Drained`, bytes are only added to `sent`, and the pass ends
well. -/
def PassOK (c : conn) (s : Sock) (p : Pass) : Prop :=
  Drained c p.conn ∧ (∃ more, p.sock.sent = s.sent ++ more) ∧ p.settled

/-- Where `buf_head` can stand: behind a whole header, or at 0 with either a
header being collected or nothing buffered. -/
def head_placed (c : conn) : Prop :=
  HEADER_SIZE ≤ c.buf_head ∨ (c.buf_head = 0 ∧ (c.state = .STATE_HEADER ∨ c.buf_tail = 0))

/-- What a pass from `next_request` keeps. -/
def HeaderPassOK (c : conn) (s : Sock) (p : Pass) : Prop :=
  cursor_ok p.conn ∧ (∃ more, p.sock.sent = s.sent ++ more) ∧ p.settled
    ∧ (c.state = .STATE_HEADER → head_placed p.conn)
    ∧ (HEADER_SIZE ≤ avail_bytes c → avail_bytes p.conn + HEADER_SIZE ≤ avail_bytes c)

/-- The guards of lines 48 and 49: `recv_exactly(conn, _, size)` compacts. -/
def compaction_due (c : conn) (size : Nat) : Prop :=
  avail_bytes c < size ∧ c.buf_head ≠ 0

/-- The `memmove` of line 50 reads `buf[buf_head .. buf_head + buf_head)`:
it stays inside the array when that range ends at `BUFSIZE` or before. -/
def compaction_in_bounds (c : conn) : Prop := c.buf_head + c.buf_head ≤ BUFSIZE

/-- The states of a connection that the event loop can see: the accepted
connection, and what a call of `drive_machine` that returned leaves. -/
inductive Reachable (P : memcached_h) : conn → Prop
  | accepted (hmem bmem : Nat → Nat) : Reachable P (accept_conn hmem bmem)
  | driven (c : conn) (s : Sock) :
      Reachable P c → (drive_machine P c s).exit = .returned →
      Reachable P (drive_machine P c s).conn

/-- A request of the protocol subset: a fetch (`store = false`) or a store,
with its key, extras and value and the header fields that are passed through
(`opq` is the header's `opaque` field). A fetch carries no value. -/
structure Request where
  store : Bool
  key : List Nat
  extras : List Nat
  value : List Nat
  data_type : Nat
  reserved : Nat
  opq : Nat
  cas : Nat

/-- A 16-bit field on the wire (big-endian). -/
def be16 (v : Nat) : List Nat := [v / 256 % 256, v % 256]

/-- A 32-bit field on the wire (big-endian). -/
def be32 (v : Nat) : List Nat :=
  [v / 16777216 % 256, v / 65536 % 256, v / 256 % 256, v % 256]

/-- A 64-bit field on the wire (big-endian). -/
def be64 (v : Nat) : List Nat := be32 (v / 4294967296) ++ be32 (v % 4294967296)

/-- The opcode byte of a request. -/
def Request.opcode (P : memcached_h) (r : Request) : Nat :=
  if r.store then P.CMD_SET else P.CMD_GET

/-- What follows the header on the wire: extras, key, and a store's value. -/
def Request.body (r : Request) : List Nat :=
  r.extras ++ r.key ++ (if r.store then r.value else [])

/-- The 24 header bytes of a request: magic 0x80 and consistent lengths. -/
def Request.header (P : memcached_h) (r : Request) : List Nat :=
  [0x80, r.opcode P] ++ be16 r.key.length ++ [r.extras.length, r.data_type]
    ++ be16 r.reserved ++ be32 r.body.length ++ be32 r.opq ++ be64 r.cas

/-- The bytes of a request on the wire. -/
def Request.wire (P : memcached_h) (r : Request) : List Nat := r.header P ++ r.body

/-- A valid request: the lengths fit their header fields and the request
fits the 2048-byte capacity. -/
def Request.valid (r : Request) : Prop :=
  r.key.length < 65536 ∧ r.extras.length < 256 ∧ HEADER_SIZE + r.body.length ≤ BUFSIZE

/-- The bytes of a sequence of requests, back to back. -/
def stream (P : memcached_h) (rs : List Request) : List Nat :=
  (rs.map (Request.wire P)).flatten

/-- The response the claims describe for a request header `h`: magic 0x81,
status big-endian 1 (key not found), body length 0, and the bytes of opcode,
key length, extras length, data type, opaque and cas as they are in `h`. -/
def response_header (h : List Nat) : List Nat :=
  [0x81, h.getD 1 0, h.getD 2 0, h.getD 3 0, h.getD 4 0, h.getD 5 0, 0x00, 0x01, 0, 0, 0, 0]
    ++ h.drop 12

/-- One response per request, in the order of the requests. -/
def responses (P : memcached_h) (rs : List Request) : List Nat :=
  (rs.map (fun r => response_header (r.header P))).flatten

/-- The event loop on one connection: each delivery becomes readable and
`drive_machine` is called once for it, as long as the process lives. -/
def serve (P : memcached_h) : conn → Sock → List (List Nat) → Run
  | c, s, [] => ⟨c, s, .returned⟩
  | c, s, d :: ds =>
    let r := drive_machine P c (deliver s d)
    if r.exit = .returned then serve P r.conn r.sock ds else r

/-- A header arriving in pieces: each piece becomes readable and
`recv_exactly(conn, &conn->header, 24)` is called once for it; the result is
that of the last call. -/
def feed : conn → Sock → List (List Nat) → RecvExactly
  | c, s, [] => recv_exactly c s HEADER_SIZE
  | c, s, [p] => recv_exactly c (deliver s p) HEADER_SIZE
  | c, s, p :: q :: ps =>
    let r := recv_exactly c (deliver s p) HEADER_SIZE
    feed r.conn r.sock (q :: ps)

/-- The connection once request `r` at the front of the unread bytes is answered. -/
def answered (P : memcached_h) (r : Request) (c : conn) : conn :=
  { c with
    state := .STATE_HEADER
    header := set_response (r.header P)
    buf_head := c.buf_head + (r.wire P).length }

/-- An event of the send script on which `send` takes at least one byte. -/
def SendEvent.takes : SendEvent → Bool
  | .room k => decide (0 < k)
  | .error _ => false

/-- A socket on which every `send` takes at least one byte: the script holds
nothing (the kernel takes all that is offered) or writes that may be partial.
No `send` fails or would block. -/
def accepting (s : Sock) : Prop := ∀ e ∈ s.tx, e.takes = true

/-- The send script that is left once `n` bytes went out on an accepting socket. -/
def tx_after : List SendEvent → Nat → List SendEvent
  | [], _ => []
  | .room k :: rest, n =>
    if n = 0 then .room k :: rest else if n ≤ k then rest else tx_after rest (n - k)
  | .error e :: rest, _ => .error e :: rest

/-- The socket once the response to request `r` is sent. -/
def replied (P : memcached_h) (r : Request) (s : Sock) : Sock :=
  { s with
    tx := tx_after s.tx HEADER_SIZE
    sent := s.sent ++ set_response (r.header P)
    log := s.log ++ [.copied (r.header P)] ++ [.offered (set_response (r.header P))] }

/-- The socket once `send_exactly` has sent all of `bs` on an accepting socket. -/
def sent_all (s : Sock) (bs : List Nat) : Sock :=
  { s with
    tx := tx_after s.tx bs.length
    sent := s.sent ++ bs
    log := s.log ++ [.offered bs] }

/-! ## The log of a connection -/

/-- The header copied last in the log `l`; `cur` is the one copied last
before `l` starts. -/
def last_copied : Option (List Nat) → List IoEvent → Option (List Nat)
  | cur, [] => cur
  | _, .copied h :: l => last_copied (some h) l
  | cur, .offered _ :: l => last_copied cur l

/-- Every buffer passed to `send_exactly` in the log is the response to the
header copied last before that call: the header has 24 bytes and the buffer
is its `response_header`. `cur` is the header copied last before the log
starts. -/
def answers_own : Option (List Nat) → List IoEvent → Prop
  | _, [] => True
  | _, .copied h :: l => answers_own (some h) l
  | none, .offered _ :: _ => False
  | some h, .offered b :: l =>
    h.length = HEADER_SIZE ∧ b = response_header h ∧ answers_own (some h) l

/-- The log is empty or its last entry is a call of `send_exactly`. -/
def ends_offered (l : List IoEvent) : Prop := l = [] ∨ ∃ pre b, l = pre ++ [.offered b]

/-- What `conn->header` holds in each state, in terms of the log: between
requests the last header copied has been offered; from `STATE_EXTRA` to
`STATE_PROC` the header is the one copied last; in `STATE_RESPONSE` it is the
response to the one copied last. -/
def state_own (c : conn) (l : List IoEvent) : Prop :=
  match c.state with
  | .STATE_HEADER => ends_offered l
  | .STATE_RESPONSE =>
    ∃ h, last_copied none l = some h ∧ h.length = HEADER_SIZE ∧ c.header = response_header h
  | _ => last_copied none l = some c.header ∧ c.header.length = HEADER_SIZE

/-- What every pass keeps of the log. -/
def Pass.own : Pass → Prop
  | .done r => answers_own none r.sock.log ∧ (r.exit = .returned → state_own r.conn r.sock.log)
  | .again c s => c.state = .STATE_HEADER ∧ answers_own none s.log ∧ ends_offered s.log

/-- The executions of one connection: it is accepted (lines 316-323) on a
socket on which nothing has happened, with any script of what `recv` and
`send` will find; and after a call of `drive_machine` that returned, the
event loop calls it again, on whatever the socket then holds for `recv` and
`send`. -/
inductive Trace (P : memcached_h) : conn → Sock → Prop
  | accepted (hmem bmem : Nat → Nat) (rx : List RecvEvent) (tx : List SendEvent) :
      Trace P (accept_conn hmem bmem)
        { rx := rx, tx := tx, sent := [], closed := false, log := [] }
  | driven (c : conn) (s : Sock) (rx : List RecvEvent) (tx : List SendEvent) :
      Trace P c s → (drive_machine P c s).exit = .returned →
      Trace P (drive_machine P c s).conn { (drive_machine P c s).sock with rx := rx, tx := tx }

/-! ## The lock of shared registration -/

/-- The function `try_lock` (lines 226-236) under
`CONFIG_REGISTER_FD_TO_ALL_EPOLLS`, on the value of `conn->lock`:
`__sync_bool_compare_and_swap(&conn->lock, 0, 1)` is one atomic step. The
result is the value returned and the lock after the step. -/
def try_lock (lock : Int) : Int × Int := if lock = 0 then (1, 1) else (0, lock)

/-- The function `unlock` (lines 238-245): the store `conn->lock = 0`. -/
def unlock (_lock : Int) : Int := 0

/-- Where a worker thread stands with one connection in the loop of lines
303-338: `waiting` in `epoll_wait` (or busy with other events); `woken` when
`epoll_wait` has reported the connection readable, without `EPOLLHUP` or
`EPOLLERR`, and line 331 is next; `locked` when `try_lock` returned nonzero
and line 332 is next; `drove` when `drive_machine` returned and line 333 is
next. -/
inductive Pc
  | waiting
  | woken
  | locked
  | drove
  deriving DecidableEq

/-- The worker is between a successful `try_lock` and the matching `unlock`. -/
def Pc.holds : Pc → Bool
  | .locked => true
  | .drove => true
  | _ => false

/-- One connection registered with every worker's epoll instance: the lock,
the connection and its socket, where each worker stands, whether the process
lives, and the workers that called `drive_machine`, in the order of the
calls. -/
structure Shared where
  lock : Int
  conn : conn
  sock : Sock
  pc : Nat → Pc
  alive : Bool
  ran : List Nat

/-- What can happen next: bytes of the peer arrive; the `epoll_wait` of
worker `w` reports the connection readable; worker `w` executes its next
statement. -/
inductive Event
  | arrive (d : List Nat)
  | wake (w : Nat)
  | step (w : Nat)
  deriving DecidableEq

/-- Worker `w` moves to `p`. -/
def set_pc (pc : Nat → Pc) (w : Nat) (p : Pc) : Nat → Pc := fun i => if i = w then p else pc i

/-- One event on the shared connection. The statements of lines 331-333 are
one step each and the steps of the workers interleave in any order;
`drive_machine` is one step. A call of `drive_machine` that does not return
ends the process. -/
def shared_step (P : memcached_h) (st : Shared) : Event → Shared
  | .arrive d => if st.alive then { st with sock := deliver st.sock d } else st
  | .wake w =>
    if st.alive ∧ st.pc w = .waiting then { st with pc := set_pc st.pc w .woken } else st
  | .step w =>
    if st.alive then
      match st.pc w with
      | .waiting => st
      | .woken =>
        let r := try_lock st.lock
        { st with lock := r.2, pc := set_pc st.pc w (if r.1 ≠ 0 then .locked else .waiting) }
      | .locked =>
        let r := drive_machine P st.conn st.sock
        { st with
          conn := r.conn
          sock := r.sock
          pc := set_pc st.pc w .drove
          alive := decide (r.exit = .returned)
          ran := st.ran ++ [w] }
      | .drove => { st with lock := unlock st.lock, pc := set_pc st.pc w .waiting }
    else st

/-- The events `evs`, one after the other. -/
def shared_run (P : memcached_h) (st : Shared) (evs : List Event) : Shared :=
  evs.foldl (shared_step P) st

/-- The connection as `accept` leaves it (lines 316-324): `conn->lock = 0`
and every worker in `epoll_wait`. -/
def shared_accept (hmem bmem : Nat → Nat) (s : Sock) : Shared :=
  { lock := 0
    conn := accept_conn hmem bmem
    sock := s
    pc := fun _ => .waiting
    alive := true
    ran := [] }

/-- No two workers hold the lock, and the lock is 1 when a worker holds it
and 0 when none does. -/
def lock_ok (st : Shared) : Prop :=
  (st.lock = 0 ∧ ∀ i, (st.pc i).holds = false)
    ∨ (st.lock = 1 ∧ ∃ w, (st.pc w).holds = true ∧ ∀ i, i ≠ w → (st.pc i).holds = false)

/-! ## Concrete inputs -/

/-- The opcodes of the memcached binary protocol, for the concrete runs. -/
def binary_protocol : memcached_h := { CMD_GET := 0x00, CMD_SET := 0x01 }

/-- Memory that holds zeroes, for the concrete runs. -/
def zeroes : Nat → Nat := fun _ => 0

/-- The store request of the end-to-end scenario: `key_len = 3`,
`extra_len = 8`, `body_len = 3 + 8 + 5`. -/
def store_example : Request :=
  { store := true, key := [107, 101, 121], extras := [0, 0, 0, 0, 0, 0, 0, 0],
    value := [118, 97, 108, 117, 101], data_type := 0, reserved := 0, opq := 0x01020304,
    cas := 0 }

/-- The fetch request of the end-to-end scenario: `key_len = 3`,
`extra_len = 0`, `body_len = 3`. -/
def fetch_example : Request :=
  { store := false, key := [107, 101, 121], extras := [], value := [], data_type := 0,
    reserved := 0, opq := 0x05060708, cas := 0 }

/-- A store request with a value of 1001 bytes: 1025 bytes on the wire. -/
def large_store : Request :=
  { store := true, key := [], extras := [], value := List.replicate 1001 0, data_type := 0,
    reserved := 0, opq := 0, cas := 0 }

/-- A store header that declares 4096 value bytes (no key, no extras). -/
def oversized_header : List Nat :=
  [0x80, 0x01, 0, 0, 0, 0, 0, 0, 0, 0, 0x10, 0x00, 0, 0, 0, 0, 0, 0, 0, 0, 0, 0, 0, 0]

/-- A store header that declares 2049 value bytes (no key, no extras). -/
def just_over_header : List Nat :=
  [0x80, 0x01, 0, 0, 0, 0, 0, 0, 0, 0, 0x08, 0x01, 0, 0, 0, 0, 0, 0, 0, 0, 0, 0, 0, 0]

/-- A header with the request magic and an opcode that is neither fetch nor store. -/
def unknown_opcode_header : List Nat :=
  [0x80, 0x02, 0, 0, 0, 0, 0, 0, 0, 0, 0, 0, 0, 0, 0, 0, 0, 0, 0, 0, 0, 0, 0, 0]

/-- A socket whose next three `send` calls take at most 10, 3 and 50 bytes. -/
def trickle : Sock :=
  { rx := [], tx := [.room 10, .room 3, .room 50], sent := [], closed := false, log := [] }

/-- The run that answers one fetch request and leaves the first byte of the
next header unread. -/
def one_byte_left : Run :=
  drive_machine binary_protocol (accept_conn zeroes zeroes)
    (deliver idle (fetch_example.wire binary_protocol ++ [0x80]))

/-- A socket that holds the fetch request of the scenario and whose next
`send` would block. -/
def blocked_send : Sock :=
  { rx := [.data (fetch_example.wire binary_protocol)], tx := [.error .EAGAIN], sent := [],
    closed := false, log := [] }

/-- The run on it: the request is read and its response built, the `send`
blocks, and the call returns in `STATE_RESPONSE`. -/
def left_in_response : Run :=
  drive_machine binary_protocol (accept_conn zeroes zeroes) blocked_send

/-- One arrival reported to two workers: the fetch request arrives, and the
`epoll_wait` of worker 0 and that of worker 1 both report the connection
readable. -/
def herd : List Event := [.arrive (fetch_example.wire binary_protocol), .wake 0, .wake 1]

instance (c : conn) (size : Nat) : Decidable (compaction_due c size) := by
  unfold compaction_due; infer_instance

instance (c : conn) : Decidable (compaction_in_bounds c) := by
  unfold compaction_in_bounds; infer_instance

instance (c : conn) : Decidable (cursor_ok c) := by
  unfold cursor_ok; infer_instance

instance (r : Request) : Decidable r.valid := by
  unfold Request.valid; infer_instance

instance (s : Sock) : Decidable (accepting s) := by
  unfold accepting; infer_instance

/-! ## The socket calls -/

theorem recv_frame (s : Sock) (len : Nat) :
    (recv s len).2.tx = s.tx ∧ (recv s len).2.sent = s.sent ∧ (recv s len).2.closed = s.closed := by
  unfold recv
  split <;> try simp
  split <;> simp

theorem recv_bytes {s s1 : Sock} {len : Nat} {bs : List Nat}
    (h : recv s len = (.bytes bs, s1)) : 0 < bs.length ∧ bs.length ≤ len := by
  unfold recv at h
  cases hrx : s.rx with
  | nil => simp [hrx] at h
  | cons ev rest =>
    cases ev with
    | data b =>
      simp only [hrx] at h
      by_cases hne : b.take len = []
      · simp [hne] at h
      · rw [if_neg hne] at h
        simp only [Prod.mk.injEq, RecvRet.bytes.injEq] at h
        obtain ⟨h1, -⟩ := h
        subst h1
        exact ⟨List.length_pos.mpr hne, by simp [List.length_take]⟩
    | shutdown => simp [hrx] at h
    | error e => simp [hrx] at h

theorem send_frame (s : Sock) (bs : List Nat) :
    (send s bs).2.rx = s.rx ∧ (send s bs).2.closed = s.closed
      ∧ ∃ more, (send s bs).2.sent = s.sent ++ more := by
  unfold send
  split
  · split
    · exact ⟨rfl, rfl, [], by simp⟩
    · exact ⟨rfl, rfl, bs, rfl⟩
  · rename_i k rest hk
    split
    · exact ⟨rfl, rfl, [], by simp⟩
    · exact ⟨rfl, rfl, bs.take k, rfl⟩
  · exact ⟨rfl, rfl, [], by simp⟩

theorem send_count {s s1 : Sock} {bs : List Nat} {n : Nat}
    (h : send s bs = (.count n, s1)) : 0 < n ∧ n ≤ bs.length := by
  unfold send at h
  split at h
  · split at h
    · simp at h
    · rename_i hne
      simp only [Prod.mk.injEq, SendRet.count.injEq] at h
      obtain ⟨h1, -⟩ := h
      subst h1
      exact ⟨List.length_pos.mpr hne, le_refl _⟩
  · split at h
    · simp at h
    · rename_i hne
      simp only [Prod.mk.injEq, SendRet.count.injEq] at h
      obtain ⟨h1, -⟩ := h
      subst h1
      exact ⟨List.length_pos.mpr hne, by simp [List.length_take]⟩
  · simp at h

/-! ## Fuel -/

theorem recv_fill_fuel (fuel : Nat) (c : conn) (s : Sock) (size : Nat)
    (h : size - c.buf_tail ≤ fuel) : (recv_fill fuel c s size).1 ≠ .nofuel := by
  induction fuel generalizing c s with
  | zero =>
    unfold recv_fill
    have : ¬ c.buf_tail < size := by omega
    simp [this]
  | succ n ih =>
    unfold recv_fill
    split
    · split
      · split
        · rename_i bs s1 hr
          apply ih
          have := recv_bytes hr
          simp only
          omega
        · simp
        · simp
      · simp
    · simp

theorem drain_loop_fuel (fuel : Nat) (s : Sock) (left : Nat) (h : left ≤ fuel) :
    (drain_loop fuel s left).1 ≠ .nofuel := by
  induction fuel generalizing s left with
  | zero =>
    unfold drain_loop
    have : left = 0 := by omega
    simp [this]
  | succ n ih =>
    unfold drain_loop
    split
    · split
      · rename_i bs s1 hr
        apply ih
        have := recv_bytes hr
        omega
      · simp
      · simp
    · simp

theorem send_loop_fuel (fuel : Nat) (s : Sock) (bs : List Nat) (part : Nat)
    (h : bs.length - part ≤ fuel) : (send_loop fuel s bs part).1 ≠ .nofuel := by
  induction fuel generalizing s part with
  | zero =>
    unfold send_loop
    have : ¬ part < bs.length := by omega
    simp [this]
  | succ n ih =>
    unfold send_loop
    split
    · split
      · rename_i k s1 hr
        apply ih
        have := send_count hr
        omega
      · simp
      · simp
    · simp

/-! ## Frames -/

theorem Drained.refl (c : conn) : Drained c c := by
  unfold Drained; simp

theorem Drained.trans {a b c : conn} (h1 : Drained a b) (h2 : Drained b c) : Drained a c := by
  unfold Drained at *
  obtain ⟨e1, h1⟩ := h1
  obtain ⟨e2, h2⟩ := h2
  refine ⟨e2.trans e1, ?_⟩
  omega

theorem Drained.cursor_ok {a b : conn} (h : Drained a b) (ha : cursor_ok a) : cursor_ok b := by
  unfold Drained at h
  unfold Servers.cursor_ok at *
  omega

theorem handle_ret_frame (s : Sock) (r : Res) :
    (handle_ret s r).2.rx = s.rx ∧ (handle_ret s r).2.tx = s.tx
      ∧ (handle_ret s r).2.sent = s.sent := by
  unfold handle_ret
  split <;> simp [close]

theorem handle_ret_fuel (s : Sock) {r : Res} (h : r ≠ .nofuel) :
    (handle_ret s r).1 ≠ some .nofuel := by
  unfold handle_ret
  split <;> simp_all

theorem recv_fill_spec (fuel : Nat) (c : conn) (s : Sock) (size : Nat)
    (hc : c.buf_tail ≤ BUFSIZE) :
    (recv_fill fuel c s size).2.1.buf_head = c.buf_head
      ∧ (recv_fill fuel c s size).2.1.buf_tail ≤ BUFSIZE
      ∧ c.buf_tail ≤ (recv_fill fuel c s size).2.1.buf_tail
      ∧ (recv_fill fuel c s size).2.1.state = c.state
      ∧ (recv_fill fuel c s size).2.1.header = c.header
      ∧ ((recv_fill fuel c s size).1 = .one → size ≤ (recv_fill fuel c s size).2.1.buf_tail)
      ∧ ((recv_fill fuel c s size).1 ≠ .one → (recv_fill fuel c s size).2.1.buf_tail < size)
      ∧ (recv_fill fuel c s size).2.2.sent = s.sent
      ∧ (recv_fill fuel c s size).2.2.tx = s.tx
      ∧ (recv_fill fuel c s size).2.2.closed = s.closed := by
  induction fuel generalizing c s with
  | zero =>
    unfold recv_fill
    split <;> simp <;> omega
  | succ n ih =>
    unfold recv_fill
    split
    · rename_i hlt
      split
      · split
        · rename_i bs s1 hr
          have hb := recv_bytes hr
          have hf := recv_frame s (BUFSIZE - c.buf_tail)
          rw [hr] at hf
          have := ih { c with buf := write_at c.buf c.buf_tail bs,
                              buf_tail := c.buf_tail + bs.length } s1 (by simp only; omega)
          simp only at this
          simp only at hf
          obtain ⟨h1, h2, h3, h4, h5, h6, h7, h8, h9, h10⟩ := this
          refine ⟨h1, h2, by omega, h4, h5, h6, h7, ?_, ?_, ?_⟩
          · rw [h8]; exact hf.2.1
          · rw [h9]; exact hf.1
          · rw [h10]; exact hf.2.2
        · rename_i s1 hr
          have hf := recv_frame s (BUFSIZE - c.buf_tail)
          rw [hr] at hf
          simp only at hf
          simp [hf, hc, hlt]
        · rename_i e s1 hr
          have hf := recv_frame s (BUFSIZE - c.buf_tail)
          rw [hr] at hf
          simp only at hf
          simp [hf, hc, hlt]
      · simp [hc, hlt]
    · rename_i hge
      simp [hc]
      omega

theorem compact_spec (c : conn) :
    (compact c).buf_head = 0 ∧ (compact c).buf_tail = avail_bytes c
      ∧ (compact c).state = c.state ∧ (compact c).header = c.header := by
  unfold compact avail_bytes
  split
  · simp
  · rename_i h
    simp only [ne_eq, Decidable.not_not] at h
    simp [h]

theorem recv_exactly_spec (c : conn) (s : Sock) (size : Nat) (hc : cursor_ok c) :
    cursor_ok (recv_exactly c s size).conn
      ∧ (recv_exactly c s size).conn.state = c.state
      ∧ (recv_exactly c s size).conn.header = c.header
      ∧ (recv_exactly c s size).sock.sent = s.sent
      ∧ (recv_exactly c s size).sock.tx = s.tx
      ∧ (recv_exactly c s size).sock.closed = s.closed
      ∧ (recv_exactly c s size).ret ≠ .nofuel
      ∧ ((recv_exactly c s size).ret = .one →
          size ≤ (recv_exactly c s size).conn.buf_head
            ∧ (recv_exactly c s size).out.length = size)
      ∧ ((recv_exactly c s size).ret ≠ .one →
          (recv_exactly c s size).conn.buf_head = 0
            ∧ (recv_exactly c s size).conn.buf_tail < size) := by
  have hc0 := hc
  unfold cursor_ok at hc
  unfold recv_exactly
  split
  · rename_i hlt
    obtain ⟨k1, k2, k3, k4⟩ := compact_spec c
    have hav : avail_bytes c ≤ BUFSIZE := by unfold avail_bytes; omega
    have hs := recv_fill_spec (size - (compact c).buf_tail) (compact c) s size (by omega)
    have hf := recv_fill_fuel (size - (compact c).buf_tail) (compact c) s size (le_refl _)
    simp only
    rcases hx : recv_fill (size - (compact c).buf_tail) (compact c) s size with ⟨r, c2, s2⟩
    rw [hx] at hs hf
    simp only at hs hf
    obtain ⟨h1, h2, h3, h4, h5, h6, h7, h8, h9, h10⟩ := hs
    unfold cursor_ok
    cases r with
    | nofuel => exact absurd rfl hf
    | one =>
      have := h6 rfl
      refine ⟨?_, ?_, ?_, ?_, ?_, ?_, ?_, ?_, ?_⟩ <;> simp [read_at, *]
    | zero =>
      have := h7 (by simp)
      refine ⟨?_, ?_, ?_, ?_, ?_, ?_, ?_, ?_, ?_⟩ <;> simp [*]
    | minus_one e =>
      have := h7 (by simp)
      refine ⟨?_, ?_, ?_, ?_, ?_, ?_, ?_, ?_, ?_⟩ <;> simp [*]
    | aborted l =>
      have := h7 (by simp)
      refine ⟨?_, ?_, ?_, ?_, ?_, ?_, ?_, ?_, ?_⟩ <;> simp [*]
  · rename_i hge
    unfold cursor_ok avail_bytes at *
    simp [read_at]
    omega

theorem drain_loop_frame (fuel : Nat) (s : Sock) (left : Nat) :
    (drain_loop fuel s left).2.sent = s.sent ∧ (drain_loop fuel s left).2.tx = s.tx
      ∧ (drain_loop fuel s left).2.closed = s.closed := by
  induction fuel generalizing s left with
  | zero => unfold drain_loop; split <;> simp
  | succ n ih =>
    unfold drain_loop
    split
    · have hf := recv_frame s left
      split
      · rename_i bs s1 hr
        rw [hr] at hf
        simp only at hf
        have := ih s1 (left - bs.length)
        simp [this, hf]
      · rename_i s1 hr
        rw [hr] at hf
        exact ⟨hf.2.1, hf.1, hf.2.2⟩
      · rename_i e s1 hr
        rw [hr] at hf
        exact ⟨hf.2.1, hf.1, hf.2.2⟩
    · simp

theorem drain_exactly_spec (c : conn) (s : Sock) (size : Nat) :
    Drained c (drain_exactly c s size).2.1
      ∧ (drain_exactly c s size).2.1.state = c.state
      ∧ (drain_exactly c s size).2.1.header = c.header
      ∧ (drain_exactly c s size).2.2.sent = s.sent
      ∧ (drain_exactly c s size).2.2.tx = s.tx
      ∧ (drain_exactly c s size).2.2.closed = s.closed
      ∧ (drain_exactly c s size).1 ≠ .nofuel := by
  unfold Drained
  by_cases h : avail_bytes c < size
  · by_cases h2 : size - avail_bytes c < 2048
    · have hf := drain_loop_frame (size - avail_bytes c) s (size - avail_bytes c)
      have hn := drain_loop_fuel (size - avail_bytes c) s (size - avail_bytes c) (le_refl _)
      simp [drain_exactly, h, h2, hf, hn]
    · simp [drain_exactly, h, h2]
  · simp only [drain_exactly, h, if_false]
    unfold avail_bytes at h
    simp
    omega

theorem send_loop_frame (fuel : Nat) (s : Sock) (bs : List Nat) (part : Nat) :
    (send_loop fuel s bs part).2.rx = s.rx ∧ (send_loop fuel s bs part).2.closed = s.closed
      ∧ ∃ more, (send_loop fuel s bs part).2.sent = s.sent ++ more := by
  induction fuel generalizing s part with
  | zero => unfold send_loop; split <;> exact ⟨rfl, rfl, [], by simp⟩
  | succ n ih =>
    unfold send_loop
    split
    · have hf := send_frame s (bs.drop part)
      split
      · rename_i k s1 hr
        rw [hr] at hf
        simp only at hf
        obtain ⟨a1, a2, m1, a3⟩ := hf
        obtain ⟨b1, b2, m2, b3⟩ := ih s1 (part + k)
        exact ⟨b1.trans a1, b2.trans a2, m1 ++ m2, by rw [b3, a3, List.append_assoc]⟩
      · rename_i s1 hr
        rw [hr] at hf
        exact hf
      · rename_i e s1 hr
        rw [hr] at hf
        exact hf
    · exact ⟨rfl, rfl, [], by simp⟩

theorem send_exactly_spec (s : Sock) (bs : List Nat) :
    (send_exactly s bs).2.rx = s.rx ∧ (send_exactly s bs).2.closed = s.closed
      ∧ (∃ more, (send_exactly s bs).2.sent = s.sent ++ more)
      ∧ (send_exactly s bs).1 ≠ .nofuel := by
  unfold send_exactly
  obtain ⟨h1, h2, h3⟩ :=
    send_loop_frame bs.length { s with log := s.log ++ [.offered bs] } bs 0
  exact ⟨h1, h2, h3, send_loop_fuel bs.length _ bs 0 (by omega)⟩

/-! ## Passes -/

theorem handle_ret_none (s : Sock) (r : Res) : (handle_ret s r).1 = none ↔ r = .one := by
  unfold handle_ret
  split <;> simp

theorem Drained.avail {a b : conn} (h : Drained a b) : avail_bytes b ≤ avail_bytes a := by
  unfold Drained at h
  unfold avail_bytes
  omega

theorem PassOK.of {c c1 : conn} {s s1 : Sock} {p : Pass} (h : PassOK c1 s1 p)
    (hd : Drained c c1) (hs : ∃ more, s1.sent = s.sent ++ more) : PassOK c s p := by
  obtain ⟨h1, ⟨m1, h2⟩, h3⟩ := h
  obtain ⟨m0, h0⟩ := hs
  exact ⟨hd.trans h1, ⟨m0 ++ m1, by rw [h2, h0, List.append_assoc]⟩, h3⟩

theorem from_response_ok (c : conn) (s : Sock) : PassOK c s (from_response c s) := by
  obtain ⟨h1, h2, ⟨m, h3⟩, h4⟩ := send_exactly_spec s c.header
  unfold from_response
  simp only
  rcases hx : send_exactly s c.header with ⟨r, s1⟩
  rw [hx] at h1 h2 h3 h4
  simp only at h1 h2 h3 h4
  have hf := handle_ret_frame s1 r
  have hn := handle_ret_none s1 r
  have hu := handle_ret_fuel s1 h4
  rcases hy : handle_ret s1 r with ⟨o, s2⟩
  rw [hy] at hf hn hu
  simp only at hf hn hu
  cases o with
  | some e =>
    refine ⟨Drained.refl c, ⟨m, by simp [Pass.sock, hf.2.2, h3]⟩, ?_⟩
    simpa [Pass.settled] using hu
  | none =>
    simp only
    split
    · rename_i hge
      refine ⟨?_, ⟨m, by simp [Pass.sock, hf.2.2, h3]⟩, ?_⟩
      · simp [Pass.conn, Drained]
      · exact ⟨rfl, hge⟩
    · refine ⟨?_, ⟨m, by simp [Pass.sock, hf.2.2, h3]⟩, ?_⟩
      · simp [Pass.conn, Drained]
      · simp [Pass.settled]

theorem from_proc_ok (c : conn) (s : Sock) : PassOK c s (from_proc c s) := by
  unfold from_proc process_request
  simp only
  refine (from_response_ok _ s).of ?_ ⟨[], by simp⟩
  simp [Drained]

/-- The shape shared by the three blocks that discard bytes. -/
theorem drain_then_ok (c : conn) (s : Sock) (size : Nat) (k : conn → Sock → Pass)
    (hk : ∀ c1 s1, PassOK c1 s1 (k c1 s1)) :
    PassOK c s
      (match handle_ret (drain_exactly c s size).2.2 (drain_exactly c s size).1 with
       | (some e, s1) => .done ⟨(drain_exactly c s size).2.1, s1, e⟩
       | (none, s1) => k (drain_exactly c s size).2.1 s1) := by
  obtain ⟨h1, h2, h3, h4, h5, h6, h7⟩ := drain_exactly_spec c s size
  rcases hx : drain_exactly c s size with ⟨r, c1, s1⟩
  rw [hx] at h1 h2 h3 h4 h5 h6 h7
  simp only at h1 h2 h3 h4 h5 h6 h7 ⊢
  have hf := handle_ret_frame s1 r
  have hu := handle_ret_fuel s1 h7
  rcases hy : handle_ret s1 r with ⟨o, s2⟩
  rw [hy] at hf hu
  simp only at hf hu
  cases o with
  | some e =>
    exact ⟨h1, ⟨[], by simp [Pass.sock, hf.2.2, h4]⟩, by simpa [Pass.settled] using hu⟩
  | none =>
    exact (hk c1 s2).of h1 ⟨[], by simp [hf.2.2, h4]⟩

theorem restate_ok {c : conn} {s : Sock} {p : Pass} (st : conn_state)
    (h : PassOK { c with state := st } s p) : PassOK c s p :=
  h.of (by simp [Drained]) ⟨[], by simp⟩

theorem from_value_ok (P : memcached_h) (c : conn) (s : Sock) :
    PassOK c s (from_value P c s) := by
  unfold from_value
  split
  · exact drain_then_ok c s _ (fun c1 s1 => from_proc { c1 with state := .STATE_PROC } s1)
      (fun c1 s1 => restate_ok .STATE_PROC (from_proc_ok _ s1))
  · split
    · exact restate_ok .STATE_PROC (from_proc_ok _ s)
    · exact ⟨Drained.refl c, ⟨[], by simp [Pass.sock]⟩, by simp [Pass.settled]⟩

theorem from_key_ok (P : memcached_h) (c : conn) (s : Sock) :
    PassOK c s (from_key P c s) := by
  unfold from_key
  exact drain_then_ok c s _ (fun c1 s1 => from_value P { c1 with state := .STATE_VALUE } s1)
    (fun c1 s1 => restate_ok .STATE_VALUE (from_value_ok P _ s1))

theorem from_extra_ok (P : memcached_h) (c : conn) (s : Sock) :
    PassOK c s (from_extra P c s) := by
  unfold from_extra
  exact drain_then_ok c s _ (fun c1 s1 => from_key P { c1 with state := .STATE_KEY } s1)
    (fun c1 s1 => restate_ok .STATE_KEY (from_key_ok P _ s1))

theorem recv_fast (c : conn) (s : Sock) (size : Nat) (h : size ≤ avail_bytes c) :
    recv_exactly c s size
      = ⟨.one, { c with buf_head := c.buf_head + size }, s, read_at c.buf c.buf_head size⟩ := by
  unfold recv_exactly
  rw [if_neg (by omega)]

theorem from_header_ok (P : memcached_h) (c : conn) (s : Sock) (hc : cursor_ok c) :
    HeaderPassOK c s (from_header P c s) := by
  obtain ⟨h1, h2, h3, h4, h5, h6, h7, h8, h9⟩ := recv_exactly_spec c s HEADER_SIZE hc
  have hfast := recv_fast c s HEADER_SIZE
  unfold from_header
  simp only
  rcases hx : recv_exactly c s HEADER_SIZE with ⟨r, c1, s1, out⟩
  rw [hx] at h1 h2 h3 h4 h5 h6 h7 h8 h9 hfast
  simp only at h1 h2 h3 h4 h5 h6 h7 h8 h9 hfast ⊢
  have hf := handle_ret_frame s1 r
  have hn := handle_ret_none s1 r
  have hu := handle_ret_fuel s1 h7
  rcases hy : handle_ret s1 r with ⟨o, s2⟩
  rw [hy] at hf hn hu
  simp only at hf hn hu
  have hav : HEADER_SIZE ≤ avail_bytes c → avail_bytes c1 + HEADER_SIZE ≤ avail_bytes c := by
    intro hge
    have := hfast hge
    simp only [RecvExactly.mk.injEq] at this
    obtain ⟨-, e, -, -⟩ := this
    subst e
    unfold avail_bytes at *
    simp only
    omega
  cases o with
  | some e =>
    have hne : r ≠ .one := fun h => Option.noConfusion (hn.mpr h)
    obtain ⟨g1, g2⟩ := h9 hne
    refine ⟨h1, ⟨[], by simp [Pass.sock, hf.2.2, h4]⟩, by simpa [Pass.settled] using hu, ?_, hav⟩
    intro hst
    right
    exact ⟨g1, Or.inl (by simp [Pass.conn, h2, hst])⟩
  | none =>
    have hone : r = .one := hn.mp rfl
    obtain ⟨g1, g2⟩ := h8 hone
    simp only
    split
    · have hp := from_extra_ok P { c1 with header := out, state := .STATE_EXTRA }
        { s2 with log := s2.log ++ [.copied out] }
      obtain ⟨d1, ⟨m, d2⟩, d3⟩ := hp
      have hd : Drained c1 (from_extra P { c1 with header := out, state := .STATE_EXTRA }
          { s2 with log := s2.log ++ [.copied out] }).conn := by
        unfold Drained at *
        simpa using d1
      refine ⟨hd.cursor_ok h1, ⟨m, by rw [d2]; simp [hf.2.2, h4]⟩, d3, ?_, ?_⟩
      · intro _
        unfold Drained at hd
        unfold head_placed
        omega
      · intro hge
        have := hav hge
        have := hd.avail
        omega
    · refine ⟨?_, ⟨[], by simp [Pass.sock, hf.2.2, h4]⟩, by simp [Pass.settled], ?_, ?_⟩
      · simpa [Pass.conn, cursor_ok] using h1
      · intro _
        left
        simpa [Pass.conn] using g1
      · intro hge
        have := hav hge
        simpa [Pass.conn, avail_bytes] using this

theorem drive_loop_ok (P : memcached_h) (fuel : Nat) (c : conn) (s : Sock)
    (hc : cursor_ok c) (hst : c.state = .STATE_HEADER) (hav : HEADER_SIZE ≤ avail_bytes c)
    (hfuel : avail_bytes c ≤ fuel) :
    cursor_ok (drive_loop P fuel c s).conn
      ∧ (∃ more, (drive_loop P fuel c s).sock.sent = s.sent ++ more)
      ∧ (drive_loop P fuel c s).exit ≠ .nofuel
      ∧ head_placed (drive_loop P fuel c s).conn := by
  induction fuel generalizing c s with
  | zero => unfold HEADER_SIZE at hav; omega
  | succ n ih =>
    unfold drive_loop
    obtain ⟨h1, ⟨m, h2⟩, h3, h4, h5⟩ := from_header_ok P c s hc
    have h4 := h4 hst
    have h5 := h5 hav
    rcases hx : from_header P c s with r | ⟨c1, s1⟩
    · rw [hx] at h1 h2 h3 h4
      exact ⟨h1, ⟨m, h2⟩, h3, h4⟩
    · rw [hx] at h1 h2 h3 h4 h5
      simp only [Pass.conn, Pass.sock] at h1 h2 h3 h4 h5 ⊢
      obtain ⟨g1, ⟨m2, g2⟩, g3, g4⟩ := ih c1 s1 h1 h3.1 h3.2 (by unfold HEADER_SIZE at *; omega)
      exact ⟨g1, ⟨m ++ m2, by rw [g2, h2, List.append_assoc]⟩, g3, g4⟩

/-! ## The whole call -/

theorem drive_machine_eq (P : memcached_h) (c : conn) (s : Sock) :
    drive_machine P c s = (enter P c s).finish P := by
  unfold drive_machine Pass.finish
  cases enter P c s <;> rfl

/-- The end of `drive_machine`: a finished pass is the result, a jump runs the loop. -/
theorem finish_ok (P : memcached_h) (s : Sock) (p : Pass) (hc : cursor_ok p.conn)
    (hs : ∃ more, p.sock.sent = s.sent ++ more) (hm : p.settled) :
    cursor_ok (p.finish P).conn
      ∧ (∃ more, (p.finish P).sock.sent = s.sent ++ more)
      ∧ (p.finish P).exit ≠ .nofuel
      ∧ (head_placed p.conn → head_placed (p.finish P).conn) := by
  cases p with
  | done r => exact ⟨hc, hs, hm, fun h => h⟩
  | again c1 s1 =>
    obtain ⟨m, hs⟩ := hs
    simp only [Pass.conn, Pass.sock, Pass.settled, Pass.finish] at hc hs hm ⊢
    obtain ⟨g1, ⟨m2, g2⟩, g3, g4⟩ := drive_loop_ok P (avail_bytes c1) c1 s1 hc hm.1 hm.2 (le_refl _)
    exact ⟨g1, ⟨m ++ m2, by rw [g2, hs, List.append_assoc]⟩, g3, fun _ => g4⟩

theorem drive_machine_ok (P : memcached_h) (c : conn) (s : Sock) (hc : cursor_ok c) :
    cursor_ok (drive_machine P c s).conn
      ∧ (∃ more, (drive_machine P c s).sock.sent = s.sent ++ more)
      ∧ (drive_machine P c s).exit ≠ .nofuel
      ∧ (head_placed c → head_placed (drive_machine P c s).conn) := by
  have key : ∀ p : Pass, c.state ≠ .STATE_HEADER → PassOK c s p →
      cursor_ok p.conn ∧ (head_placed c → head_placed p.conn) := by
    intro p hst hp
    refine ⟨hp.1.cursor_ok hc, fun h => ?_⟩
    have hd := hp.1
    unfold Drained at hd
    unfold head_placed at *
    rcases h with h | ⟨h0, hs | ht⟩
    · omega
    · exact absurd hs hst
    · omega
  rw [drive_machine_eq]
  have hdisp : (c.state = .STATE_HEADER ∧ enter P c s = from_header P c s)
      ∨ (c.state ≠ .STATE_HEADER ∧ PassOK c s (enter P c s)) := by
    unfold enter
    cases hst : c.state
    · left; simp
    · right; exact ⟨by simp, from_extra_ok P c s⟩
    · right; exact ⟨by simp, from_key_ok P c s⟩
    · right; exact ⟨by simp, from_value_ok P c s⟩
    · right; exact ⟨by simp, from_proc_ok c s⟩
    · right; exact ⟨by simp, from_response_ok c s⟩
  rcases hdisp with ⟨hst, he⟩ | ⟨hst, hp⟩
  · rw [he]
    obtain ⟨h1, h2, h3, h4, -⟩ := from_header_ok P c s hc
    obtain ⟨g1, g2, g3, g4⟩ := finish_ok P s (from_header P c s) h1 h2 h3
    exact ⟨g1, g2, g3, fun _ => g4 (h4 hst)⟩
  · obtain ⟨k1, k2⟩ := key _ hst hp
    obtain ⟨g1, g2, g3, g4⟩ := finish_ok P s (enter P c s) k1 hp.2.1 hp.2.2
    exact ⟨g1, g2, g3, fun h => g4 (k2 h)⟩

theorem drive_machine_fuel (P : memcached_h) (c : conn) (s : Sock) (hc : cursor_ok c) :
    (drive_machine P c s).exit ≠ .nofuel :=
  (drive_machine_ok P c s hc).2.2.1

theorem accept_conn_ok (hmem bmem : Nat → Nat) :
    cursor_ok (accept_conn hmem bmem) ∧ head_placed (accept_conn hmem bmem) := by
  unfold cursor_ok head_placed accept_conn BUFSIZE
  simp

theorem Reachable.ok {P : memcached_h} {c : conn} (h : Reachable P c) :
    cursor_ok c ∧ head_placed c := by
  induction h with
  | accepted hmem bmem => exact accept_conn_ok hmem bmem
  | driven c s _ _ ih =>
    obtain ⟨g1, -, -, g4⟩ := drive_machine_ok P c s ih.1
    exact ⟨g1, g4 ih.2⟩

/-- C4: the cursor invariant `0 ≤ buf_head ≤ buf_tail ≤ 2048` holds for the
accepted connection and is kept by `recv_exactly` (for every size), by
`drain_exactly` (for every size) and by `drive_machine`, whatever the socket
holds in store (data of any length, would-block, shutdown, any error) and
however the call ends. -/
theorem cursor_invariant (P : memcached_h) :
    (∀ hmem bmem, cursor_ok (accept_conn hmem bmem))
      ∧ (∀ c s size, cursor_ok c → size ≤ BUFSIZE → cursor_ok (recv_exactly c s size).conn)
      ∧ (∀ c s size, cursor_ok c → cursor_ok (drain_exactly c s size).2.1)
      ∧ (∀ c s, cursor_ok c → cursor_ok (drive_machine P c s).conn) :=
  ⟨fun hmem bmem => (accept_conn_ok hmem bmem).1,
   fun c s size hc _ => (recv_exactly_spec c s size hc).1,
   fun c s size hc => (drain_exactly_spec c s size).1.cursor_ok hc,
   fun c s hc => (drive_machine_ok P c s hc).1⟩

/-! ## Reading and writing memory -/

theorem read_at_length (m : Nat → Nat) (off n : Nat) : (read_at m off n).length = n := by
  simp [read_at]

theorem read_at_congr {m m1 : Nat → Nat} {off off1 n : Nat}
    (h : ∀ i, i < n → m (off + i) = m1 (off1 + i)) : read_at m off n = read_at m1 off1 n := by
  unfold read_at
  apply List.map_congr_left
  intro i hi
  exact h i (List.mem_range.mp hi)

theorem read_at_add (m : Nat → Nat) (off a b : Nat) :
    read_at m off (a + b) = read_at m off a ++ read_at m (off + a) b := by
  unfold read_at
  rw [List.range_add, List.map_append, List.map_map]
  congr 1
  apply List.map_congr_left
  intro i _
  simp [Nat.add_assoc]

theorem read_write_at (m : Nat → Nat) (off : Nat) (bs : List Nat) :
    read_at (write_at m off bs) off bs.length = bs := by
  apply List.ext_getElem
  · simp [read_at]
  · intro i h1 h2
    simp only [read_at, List.getElem_map, List.getElem_range, write_at]
    rw [if_pos (by omega)]
    simp [List.getD_eq_getElem?_getD, List.getElem?_eq_getElem h2]

theorem read_below_write (m : Nat → Nat) (off : Nat) (bs : List Nat) (lo n : Nat)
    (h : lo + n ≤ off) : read_at (write_at m off bs) lo n = read_at m lo n := by
  apply read_at_congr
  intro i hi
  simp only [write_at]
  rw [if_neg (by omega)]

/-! ## One delivery -/

theorem recv_nothing (s : Sock) (len : Nat) (h : s.rx = []) :
    recv s len = (.fail .EAGAIN, s) := by
  unfold recv
  rw [h]

theorem recv_chunk (s : Sock) (len : Nat) (p : List Nat) (rest : List RecvEvent)
    (h : s.rx = .data p :: rest) (hp : p ≠ []) (hl : p.length ≤ len) :
    recv s len = (.bytes p, { s with rx := rest }) := by
  unfold recv
  rw [h]
  have h1 : p.take len = p := List.take_of_length_le hl
  have h2 : p.drop len = [] := List.drop_of_length_le hl
  simp [h1, h2, hp]

theorem recv_fill_chunk (fuel : Nat) (c : conn) (s : Sock) (size : Nat) (p : List Nat)
    (hrx : s.rx = [.data p]) (hp : p ≠ []) (hl : c.buf_tail + p.length ≤ BUFSIZE)
    (ht : c.buf_tail < size) (hsz : size ≤ BUFSIZE) (hfuel : size - c.buf_tail ≤ fuel) :
    recv_fill fuel c s size
      = (if size ≤ c.buf_tail + p.length then .one else .minus_one .EAGAIN,
         { c with buf := write_at c.buf c.buf_tail p, buf_tail := c.buf_tail + p.length },
         { s with rx := [] }) := by
  have hpos : 0 < p.length := List.length_pos.mpr hp
  obtain ⟨n, rfl⟩ : ∃ n, fuel = n + 1 := ⟨fuel - 1, by omega⟩
  unfold recv_fill
  rw [if_pos ht, if_pos (by omega), recv_chunk s _ p [] hrx hp (by omega)]
  simp only
  cases n with
  | zero =>
    unfold recv_fill
    simp only
    rw [if_neg (by omega), if_pos (by omega)]
  | succ k =>
    unfold recv_fill
    simp only
    by_cases hdone : size ≤ c.buf_tail + p.length
    · rw [if_neg (by omega), if_pos hdone]
    · rw [if_pos (by omega), if_pos (by omega), if_neg hdone, recv_nothing _ _ rfl]

theorem recv_exactly_chunk (c : conn) (s : Sock) (size : Nat) (p : List Nat)
    (hh : c.buf_head = 0) (hrx : s.rx = []) (hp : p ≠ [])
    (hl : c.buf_tail + p.length ≤ BUFSIZE) (ht : c.buf_tail < size) (hsz : size ≤ BUFSIZE) :
    recv_exactly c (deliver s p) size
      = if size ≤ c.buf_tail + p.length then
          ⟨.one, { c with buf := write_at c.buf c.buf_tail p,
                          buf_tail := c.buf_tail + p.length, buf_head := size },
            s, read_at (write_at c.buf c.buf_tail p) 0 size⟩
        else
          ⟨.minus_one .EAGAIN, { c with buf := write_at c.buf c.buf_tail p,
                                        buf_tail := c.buf_tail + p.length }, s, []⟩ := by
  have hs : { deliver s p with rx := [] } = s := by
    cases s
    simp only [deliver] at *
    simp [hrx]
  have hc : compact c = c := by
    unfold compact
    simp [hh]
  unfold recv_exactly
  rw [if_pos (by unfold avail_bytes; omega)]
  simp only [hc]
  rw [recv_fill_chunk (size - c.buf_tail) c (deliver s p) size p (by simp [deliver, hrx]) hp hl ht
    hsz (le_refl _), hs]
  by_cases hdone : size ≤ c.buf_tail + p.length
  · simp [hdone, hh]
  · simp [hdone]

/-! ## A header in pieces -/

theorem feed_flat (pieces : List (List Nat)) (c : conn) (s : Sock)
    (hh : c.buf_head = 0) (hrx : s.rx = []) (hne : pieces ≠ [])
    (hp : ∀ p ∈ pieces, p ≠ [])
    (hlen : c.buf_tail + pieces.flatten.length = HEADER_SIZE) :
    (feed c s pieces).ret = .one
      ∧ (feed c s pieces).out = read_at c.buf 0 c.buf_tail ++ pieces.flatten := by
  induction pieces generalizing c s with
  | nil => exact absurd rfl hne
  | cons p ps ih =>
    have hpne : p ≠ [] := hp p (List.mem_cons_self _ _)
    have hpos : 0 < p.length := List.length_pos.mpr hpne
    simp only [List.flatten_cons, List.length_append] at hlen
    have hH : HEADER_SIZE = 24 := rfl
    have hB : BUFSIZE = 2048 := rfl
    cases ps with
    | nil =>
      simp only [List.flatten_nil, List.length_nil, Nat.add_zero] at hlen
      unfold feed
      rw [recv_exactly_chunk c s HEADER_SIZE p hh hrx hpne (by omega) (by omega) (by omega),
        if_pos (by omega)]
      refine ⟨rfl, ?_⟩
      simp only [List.flatten_cons, List.flatten_nil, List.append_nil]
      rw [← hlen, read_at_add, read_below_write _ _ _ _ _ (by omega)]
      congr 1
      simpa using read_write_at c.buf c.buf_tail p
    | cons q qs =>
      have hq : q ≠ [] := hp q (by simp)
      have hqpos : 0 < q.length := List.length_pos.mpr hq
      simp only [List.flatten_cons, List.length_append] at hlen
      unfold feed
      simp only
      rw [recv_exactly_chunk c s HEADER_SIZE p hh hrx hpne (by omega) (by omega) (by omega),
        if_neg (by omega)]
      simp only
      have := ih { c with buf := write_at c.buf c.buf_tail p, buf_tail := c.buf_tail + p.length }
        s hh hrx (by simp) (fun x hx => hp x (List.mem_cons_of_mem _ hx))
        (by simp only [List.flatten_cons, List.length_append]; omega)
      simp only at this
      refine ⟨this.1, ?_⟩
      rw [this.2, read_at_add, read_below_write _ _ _ _ _ (by omega)]
      simp only [List.flatten_cons, List.append_assoc]
      congr 1
      have := read_write_at c.buf c.buf_tail p
      simp only [Nat.zero_add]
      rw [this]

theorem compact_idem (c : conn) : compact (compact c) = compact c := by
  unfold compact
  split <;> simp_all

theorem recv_exactly_compact (c : conn) (s : Sock) (size : Nat)
    (h : avail_bytes c < size) : recv_exactly c s size = recv_exactly (compact c) s size := by
  obtain ⟨k1, k2, -, -⟩ := compact_spec c
  have h2 : avail_bytes (compact c) < size := by
    unfold avail_bytes at *
    omega
  unfold recv_exactly
  rw [if_pos h, if_pos h2, compact_idem]

theorem feed_compact (c : conn) (s : Sock) (pieces : List (List Nat))
    (h : avail_bytes c < HEADER_SIZE) : feed c s pieces = feed (compact c) s pieces := by
  cases pieces with
  | nil => unfold feed; exact recv_exactly_compact c s _ h
  | cons p ps =>
    cases ps with
    | nil => unfold feed; exact recv_exactly_compact c _ _ h
    | cons q qs =>
      unfold feed
      simp only
      rw [recv_exactly_compact c _ _ h]

theorem compact_unread (c : conn) (h : c.buf_head = 0 ∨ avail_bytes c ≤ c.buf_head) :
    read_at (compact c).buf 0 (compact c).buf_tail = unread c := by
  obtain ⟨-, k2, -, -⟩ := compact_spec c
  rw [k2]
  unfold unread
  apply read_at_congr
  intro i hi
  unfold compact
  split
  · rename_i hne
    have : avail_bytes c ≤ c.buf_head := by omega
    simp only [memmove]
    rw [if_pos (by omega)]
    simp
  · rename_i h0
    simp only [ne_eq, Decidable.not_not] at h0
    simp [h0]

/-- C6: a header that arrives in pieces is put together as one that arrives
whole. For every connection state `c` the event loop can see (in particular
one waiting in `STATE_HEADER` with `buf_head > 0` and fewer than 24 unread
bytes left from an earlier read) and every way of delivering the bytes that
complete the header in one or more non-empty pieces, with `recv_exactly`
called once for each piece: the last call returns 1, so does the call when
the same bytes arrive in one delivery, and both copy out the same 24 bytes,
the unread bytes followed by the delivered ones. -/
theorem split_header_reassembled (P : memcached_h) (c : conn) (hr : Reachable P c)
    (s : Sock) (hrx : s.rx = []) (pieces : List (List Nat)) (hne : pieces ≠ [])
    (hp : ∀ p ∈ pieces, p ≠ [])
    (hlen : avail_bytes c + pieces.flatten.length = HEADER_SIZE) :
    (feed c s pieces).ret = .one
      ∧ (recv_exactly c (deliver s pieces.flatten) HEADER_SIZE).ret = .one
      ∧ (feed c s pieces).out = (recv_exactly c (deliver s pieces.flatten) HEADER_SIZE).out
      ∧ (feed c s pieces).out = unread c ++ pieces.flatten := by
  obtain ⟨hc, hpl⟩ := hr.ok
  obtain ⟨p, ps, rfl⟩ : ∃ p ps, pieces = p :: ps := by
    cases pieces with
    | nil => exact absurd rfl hne
    | cons p ps => exact ⟨p, ps, rfl⟩
  have hpne : p ≠ [] := hp p (List.mem_cons_self _ _)
  have hpos : 0 < p.length := List.length_pos.mpr hpne
  have hflat : (p :: ps).flatten ≠ [] := by
    simp only [List.flatten_cons]
    intro h
    exact hpne (List.append_eq_nil.mp h).1
  have hlt : avail_bytes c < HEADER_SIZE := by
    have := List.length_pos.mpr hflat
    omega
  obtain ⟨k1, k2, -, -⟩ := compact_spec c
  have hsmall : c.buf_head = 0 ∨ avail_bytes c ≤ c.buf_head := by
    unfold head_placed at hpl
    omega
  have hun := compact_unread c hsmall
  have hsplit := feed_flat (p :: ps) (compact c) s k1 hrx hne hp (by rw [k2]; exact hlen)
  have hwhole := feed_flat [(p :: ps).flatten] (compact c) s k1 hrx (by simp)
    (by intro x hx; simp only [List.mem_singleton] at hx; rw [hx]; exact hflat)
    (by rw [k2]; simpa using hlen)
  rw [← feed_compact c s _ hlt, hun] at hsplit hwhole
  have hw : feed c s [(p :: ps).flatten]
      = recv_exactly c (deliver s (p :: ps).flatten) HEADER_SIZE := by
    unfold feed
    rfl
  rw [hw] at hwhole
  simp only [List.flatten_cons, List.flatten_nil, List.append_nil] at hwhole hsplit ⊢
  exact ⟨hsplit.1, hwhole.1, by rw [hsplit.2, hwhole.2], hsplit.2⟩

/-! ## The fast paths -/

theorem drain_fast (c : conn) (s : Sock) (size : Nat) (h : size ≤ avail_bytes c) :
    drain_exactly c s size = (.one, { c with buf_head := c.buf_head + size }, s) := by
  unfold drain_exactly
  rw [if_neg (by omega)]

theorem send_loop_done (fuel : Nat) (s : Sock) (bs : List Nat) (part : Nat)
    (h : bs.length ≤ part) : send_loop fuel s bs part = (.one, s) := by
  cases fuel <;> (unfold send_loop; rw [if_neg (by omega)])

theorem tx_after_zero (tx : List SendEvent) : tx_after tx 0 = tx := by
  cases tx with
  | nil => rfl
  | cons e rest => cases e <;> simp [tx_after]

theorem tx_after_takes (tx : List SendEvent) (n : Nat) (h : ∀ e ∈ tx, e.takes = true) :
    ∀ e ∈ tx_after tx n, e.takes = true := by
  induction tx generalizing n with
  | nil => simp [tx_after]
  | cons e rest ih =>
    cases e with
    | room k =>
      unfold tx_after
      split
      · exact h
      · split
        · exact fun e he => h e (List.mem_cons_of_mem _ he)
        · exact ih _ (fun e he => h e (List.mem_cons_of_mem _ he))
    | error e => simpa [tx_after] using h

theorem send_loop_accepting (fuel : Nat) (s : Sock) (bs : List Nat) (part : Nat)
    (ha : accepting s) (hp : part ≤ bs.length) (hfuel : bs.length - part ≤ fuel) :
    send_loop fuel s bs part
      = (.one, { s with tx := tx_after s.tx (bs.length - part),
                        sent := s.sent ++ bs.drop part }) := by
  induction fuel generalizing s part with
  | zero =>
    have hpe : part = bs.length := by omega
    unfold send_loop
    rw [if_neg (by omega), hpe]
    simp [tx_after_zero]
  | succ n ih =>
    unfold send_loop
    by_cases hlt : part < bs.length
    · rw [if_pos hlt]
      have hdne : bs.drop part ≠ [] := by
        intro h
        have := congrArg List.length h
        simp at this
        omega
      unfold accepting at ha
      cases htx : s.tx with
      | nil =>
        have hs : send s (bs.drop part)
            = (.count (bs.drop part).length, { s with sent := s.sent ++ bs.drop part }) := by
          unfold send
          rw [htx]
          simp [hdne]
        rw [hs]
        simp only
        rw [send_loop_done _ _ _ _ (by simp; omega)]
        simp [htx, tx_after]
      | cons e rest =>
        rw [htx] at ha
        cases e with
        | error e =>
          have := ha (.error e) (by simp)
          simp [SendEvent.takes] at this
        | room k =>
          have hk : 0 < k := by
            have := ha (.room k) (by simp)
            simpa [SendEvent.takes] using this
          have htne : (bs.drop part).take k ≠ [] := by
            intro h
            have := congrArg List.length h
            simp at this
            omega
          have hs : send s (bs.drop part)
              = (.count ((bs.drop part).take k).length,
                  { s with tx := rest, sent := s.sent ++ (bs.drop part).take k }) := by
            unfold send
            rw [htx]
            simp [htne]
          have hlen : ((bs.drop part).take k).length = min k (bs.length - part) := by
            simp
          rw [hs, hlen]
          simp only
          rw [ih { s with tx := rest, sent := s.sent ++ (bs.drop part).take k }
            (part + min k (bs.length - part))
            (by
              unfold accepting
              exact fun e he => ha e (List.mem_cons_of_mem _ he))
            (by omega) (by omega)]
          have hsent : (bs.drop part).take k ++ bs.drop (part + min k (bs.length - part))
              = bs.drop part := by
            have h1 : bs.drop (part + min k (bs.length - part))
                = (bs.drop part).drop (min k (bs.length - part)) := by
              rw [List.drop_drop, Nat.add_comm]
            have h2 : (bs.drop part).take k = (bs.drop part).take (min k (bs.length - part)) := by
              by_cases hkl : k ≤ bs.length - part
              · rw [Nat.min_eq_left hkl]
              · rw [Nat.min_eq_right (by omega), List.take_of_length_le (by simp; omega),
                  List.take_of_length_le (by simp)]
            rw [h1, h2, List.take_append_drop]
          have htxa : tx_after rest (bs.length - (part + min k (bs.length - part)))
              = tx_after (.room k :: rest) (bs.length - part) := by
            conv_rhs => unfold tx_after
            rw [if_neg (by omega)]
            by_cases hkl : bs.length - part ≤ k
            · rw [if_pos hkl, Nat.min_eq_right hkl]
              have : bs.length - (part + (bs.length - part)) = 0 := by omega
              rw [this, tx_after_zero]
            · rw [if_neg hkl, Nat.min_eq_left (by omega)]
              congr 1
              omega
          simp only [List.append_assoc, hsent, htxa]
    · have hpe : part = bs.length := by omega
      rw [if_neg hlt, hpe]
      simp [tx_after_zero]

theorem send_all (s : Sock) (bs : List Nat) (ha : accepting s) :
    send_exactly s bs = (.one, sent_all s bs) := by
  unfold send_exactly sent_all
  rw [send_loop_accepting _ { s with log := s.log ++ [.offered bs] } bs 0 ha (by omega)
    (by omega)]
  simp

theorem from_response_send (c : conn) (s : Sock) (ha : accepting s) :
    from_response c s
      = if HEADER_SIZE ≤ avail_bytes c then
          .again { c with state := .STATE_HEADER } (sent_all s c.header)
        else
          .done ⟨{ c with state := .STATE_HEADER }, sent_all s c.header, .returned⟩ := by
  unfold from_response
  rw [send_all s c.header ha]
  simp [handle_ret, avail_bytes]

theorem set_response_length (h : List Nat) : (set_response h).length = h.length := by
  simp [set_response, store16, store32]

theorem from_proc_send (c : conn) (s : Sock) (ha : accepting s) :
    from_proc c s
      = if HEADER_SIZE ≤ avail_bytes c then
          .again { c with state := .STATE_HEADER, header := set_response c.header }
            (sent_all s (set_response c.header))
        else
          .done ⟨{ c with state := .STATE_HEADER, header := set_response c.header },
            sent_all s (set_response c.header), .returned⟩ := by
  unfold from_proc process_request
  simp only
  rw [from_response_send _ s ha]
  simp [avail_bytes]

theorem from_value_fast (P : memcached_h) (c : conn) (s : Sock) (n : Nat)
    (hset : hdr_opcode c.header = P.CMD_SET → value_len c.header = n)
    (hget : hdr_opcode c.header ≠ P.CMD_SET → hdr_opcode c.header = P.CMD_GET ∧ n = 0)
    (hn : n ≤ avail_bytes c) :
    from_value P c s
      = from_proc { c with state := .STATE_PROC, buf_head := c.buf_head + n } s := by
  unfold from_value
  by_cases h : hdr_opcode c.header = P.CMD_SET
  · rw [if_pos h, hset h, drain_fast c s n hn]
    simp [handle_ret]
  · obtain ⟨h1, h2⟩ := hget h
    rw [if_neg h, if_pos h1, h2]
    rfl

theorem from_key_fast (P : memcached_h) (c : conn) (s : Sock)
    (hn : bswap16 (hdr_key_len c.header) ≤ avail_bytes c) :
    from_key P c s
      = from_value P { c with state := .STATE_VALUE,
                              buf_head := c.buf_head + bswap16 (hdr_key_len c.header) } s := by
  unfold from_key
  rw [drain_fast c s _ hn]
  simp [handle_ret]

theorem from_extra_fast (P : memcached_h) (c : conn) (s : Sock)
    (hn : hdr_extra_len c.header ≤ avail_bytes c) :
    from_extra P c s
      = from_key P { c with state := .STATE_KEY,
                            buf_head := c.buf_head + hdr_extra_len c.header } s := by
  unfold from_extra
  rw [drain_fast c s _ hn]
  simp [handle_ret]

theorem from_header_fast (P : memcached_h) (c : conn) (s : Sock)
    (hn : HEADER_SIZE ≤ avail_bytes c)
    (hm : hdr_magic (read_at c.buf c.buf_head HEADER_SIZE) = 0x80) :
    from_header P c s
      = from_extra P { c with state := .STATE_EXTRA,
                              header := read_at c.buf c.buf_head HEADER_SIZE,
                              buf_head := c.buf_head + HEADER_SIZE }
          { s with log := s.log ++ [.copied (read_at c.buf c.buf_head HEADER_SIZE)] } := by
  unfold from_header
  rw [recv_fast c s _ hn]
  simp [handle_ret, hm]

/-! ## The header of a request -/

theorem header_length (P : memcached_h) (r : Request) : (r.header P).length = 24 := by
  simp [Request.header, be16, be32, be64]

theorem header_magic (P : memcached_h) (r : Request) : hdr_magic (r.header P) = 0x80 := by
  simp [Request.header, hdr_magic]

theorem header_opcode (P : memcached_h) (r : Request) :
    hdr_opcode (r.header P) = r.opcode P := by
  simp [Request.header, hdr_opcode]

theorem header_extra_len (P : memcached_h) (r : Request) :
    hdr_extra_len (r.header P) = r.extras.length := by
  simp [Request.header, hdr_extra_len, be16]

theorem bswap16_bytes (hi lo : Nat) (h1 : hi < 256) (h2 : lo < 256) :
    bswap16 (hi + 256 * lo) = hi * 256 + lo := by
  unfold bswap16
  omega

theorem bswap32_bytes (b0 b1 b2 b3 : Nat) (h0 : b0 < 256) (h1 : b1 < 256) (h2 : b2 < 256)
    (h3 : b3 < 256) :
    bswap32 (b0 + 256 * b1 + 65536 * b2 + 16777216 * b3)
      = b0 * 16777216 + b1 * 65536 + b2 * 256 + b3 := by
  unfold bswap32
  omega

theorem header_key_len (P : memcached_h) (r : Request) (h : r.key.length < 65536) :
    bswap16 (hdr_key_len (r.header P)) = r.key.length := by
  have : hdr_key_len (r.header P) = r.key.length / 256 % 256 + 256 * (r.key.length % 256) := by
    simp [Request.header, hdr_key_len, load16, be16]
  rw [this, bswap16_bytes _ _ (Nat.mod_lt _ (by norm_num)) (Nat.mod_lt _ (by norm_num))]
  omega

theorem header_body_len (P : memcached_h) (r : Request) (h : r.body.length < 4294967296) :
    bswap32 (hdr_body_len (r.header P)) = r.body.length := by
  have : hdr_body_len (r.header P)
      = r.body.length / 16777216 % 256 + 256 * (r.body.length / 65536 % 256)
        + 65536 * (r.body.length / 256 % 256) + 16777216 * (r.body.length % 256) := by
    simp [Request.header, hdr_body_len, load32, be16, be32]
  rw [this, bswap32_bytes _ _ _ _ (Nat.mod_lt _ (by norm_num)) (Nat.mod_lt _ (by norm_num))
    (Nat.mod_lt _ (by norm_num)) (Nat.mod_lt _ (by norm_num))]
  have e1 : r.body.length / 65536 = r.body.length / 256 / 256 := by
    rw [Nat.div_div_eq_div_mul]
  have e2 : r.body.length / 16777216 = r.body.length / 256 / 256 / 256 := by
    rw [Nat.div_div_eq_div_mul, Nat.div_div_eq_div_mul]
  rw [e1, e2]
  omega

theorem header_value_len (P : memcached_h) (r : Request) (hv : r.valid) :
    value_len (r.header P) = if r.store then r.value.length else 0 := by
  obtain ⟨h1, h2, h3⟩ := hv
  have hB : BUFSIZE = 2048 := rfl
  have hH : HEADER_SIZE = 24 := rfl
  unfold value_len
  rw [header_body_len P r (by omega), header_key_len P r h1, header_extra_len]
  have hb : r.body.length
      = r.extras.length + r.key.length + (if r.store then r.value.length else 0) := by
    unfold Request.body
    split <;> simp
    omega
  cases hs : r.store
  · rw [hs] at hb
    simp only [Bool.false_eq_true, if_false, Nat.add_zero] at hb ⊢
    rw [hb]
    push_cast
    omega
  · rw [hs] at hb
    simp only [if_true] at hb ⊢
    rw [hb]
    push_cast
    omega

/-! ## Requests from the buffer -/

theorem set_response_eq (h : List Nat) (hl : h.length = 24) :
    set_response h = response_header h := by
  iterate 24 (rcases h with _ | ⟨_, h⟩; · simp at hl)
  rcases h with _ | ⟨_, h⟩
  · rfl
  · simp at hl

theorem body_length (r : Request) :
    r.body.length = r.extras.length + r.key.length + (if r.store then r.value.length else 0) := by
  unfold Request.body
  split <;> simp
  omega

theorem wire_length (P : memcached_h) (r : Request) :
    (r.wire P).length = 24 + r.body.length := by
  simp [Request.wire, header_length]

theorem unread_front (c : conn) (front rest : List Nat) (h : unread c = front ++ rest) :
    avail_bytes c = front.length + rest.length
      ∧ read_at c.buf c.buf_head front.length = front
      ∧ read_at c.buf (c.buf_head + front.length) rest.length = rest := by
  have hl : avail_bytes c = front.length + rest.length := by
    have := congrArg List.length h
    simpa [unread, read_at_length] using this
  unfold unread at h
  rw [hl, read_at_add] at h
  have := List.append_inj h (by simp [read_at_length])
  exact ⟨hl, this.1, this.2⟩

theorem pass_request (P : memcached_h) (r : Request) (rest : List Nat) (c : conn) (s : Sock)
    (hv : r.valid) (ha : accepting s) (hbuf : unread c = r.wire P ++ rest) :
    from_header P c s
        = (if HEADER_SIZE ≤ rest.length then .again (answered P r c) (replied P r s)
           else .done ⟨answered P r c, replied P r s, .returned⟩)
      ∧ unread (answered P r c) = rest := by
  have hH : HEADER_SIZE = 24 := rfl
  obtain ⟨hw1, hw2, hw3⟩ := unread_front c _ _ hbuf
  have hwl := wire_length P r
  have hbl := body_length r
  have hhl := header_length P r
  have hhdr : read_at c.buf c.buf_head HEADER_SIZE = r.header P := by
    have hb2 : unread c = r.header P ++ (r.body ++ rest) := by
      rw [hbuf, Request.wire, List.append_assoc]
    have := (unread_front c _ _ hb2).2.1
    rwa [hhl] at this
  have hun : unread (answered P r c) = rest := by
    unfold unread answered avail_bytes
    simp only
    unfold avail_bytes at hw1
    have : c.buf_tail - (c.buf_head + (r.wire P).length) = rest.length := by omega
    rw [this]
    exact hw3
  refine ⟨?_, hun⟩
  unfold avail_bytes at hw1
  obtain ⟨t, ht⟩ : ∃ t, t = ({ s with log := s.log ++ [.copied (r.header P)] } : Sock) :=
    ⟨_, rfl⟩
  have hat : accepting t := by
    rw [ht]
    exact ha
  have e1 : from_header P c s
      = from_extra P ⟨.STATE_EXTRA, r.header P, c.buf_head + 24, c.buf_tail, c.buf⟩ t := by
    rw [from_header_fast P c s (by unfold avail_bytes; omega)
      (by rw [hhdr]; exact header_magic P r), hhdr, ht]
    rfl
  have e2 : from_extra P ⟨.STATE_EXTRA, r.header P, c.buf_head + 24, c.buf_tail, c.buf⟩ t
      = from_key P ⟨.STATE_KEY, r.header P, c.buf_head + 24 + r.extras.length, c.buf_tail,
          c.buf⟩ t := by
    rw [from_extra_fast P ⟨.STATE_EXTRA, r.header P, c.buf_head + 24, c.buf_tail, c.buf⟩ t (by
      show hdr_extra_len (r.header P) ≤ c.buf_tail - (c.buf_head + 24)
      rw [header_extra_len]
      omega)]
    show from_key P ⟨.STATE_KEY, r.header P, c.buf_head + 24 + hdr_extra_len (r.header P),
      c.buf_tail, c.buf⟩ t = _
    rw [header_extra_len]
  have e3 : from_key P ⟨.STATE_KEY, r.header P, c.buf_head + 24 + r.extras.length, c.buf_tail,
          c.buf⟩ t
      = from_value P ⟨.STATE_VALUE, r.header P,
          c.buf_head + 24 + r.extras.length + r.key.length, c.buf_tail, c.buf⟩ t := by
    rw [from_key_fast P ⟨.STATE_KEY, r.header P, c.buf_head + 24 + r.extras.length, c.buf_tail,
          c.buf⟩ t (by
      show bswap16 (hdr_key_len (r.header P)) ≤ c.buf_tail - (c.buf_head + 24 + r.extras.length)
      rw [header_key_len P r hv.1]
      omega)]
    show from_value P ⟨.STATE_VALUE, r.header P,
      c.buf_head + 24 + r.extras.length + bswap16 (hdr_key_len (r.header P)),
      c.buf_tail, c.buf⟩ t = _
    rw [header_key_len P r hv.1]
  have e4 : from_value P ⟨.STATE_VALUE, r.header P,
          c.buf_head + 24 + r.extras.length + r.key.length, c.buf_tail, c.buf⟩ t
      = from_proc ⟨.STATE_PROC, r.header P, c.buf_head + (r.wire P).length, c.buf_tail,
          c.buf⟩ t := by
    rw [from_value_fast P ⟨.STATE_VALUE, r.header P,
          c.buf_head + 24 + r.extras.length + r.key.length, c.buf_tail, c.buf⟩ t
      (if r.store then r.value.length else 0)
      (fun _ => header_value_len P r hv)
      (fun hne => by
        have hne2 : r.opcode P ≠ P.CMD_SET := by
          rw [← header_opcode P r]
          exact hne
        show hdr_opcode (r.header P) = P.CMD_GET ∧ _
        rw [header_opcode]
        unfold Request.opcode at hne2 ⊢
        cases hs : r.store
        · simp
        · simp [hs] at hne2)
      (by
        show _ ≤ c.buf_tail - (c.buf_head + 24 + r.extras.length + r.key.length)
        omega)]
    have : c.buf_head + 24 + r.extras.length + r.key.length
        + (if r.store then r.value.length else 0) = c.buf_head + (r.wire P).length := by omega
    show from_proc ⟨.STATE_PROC, r.header P, c.buf_head + 24 + r.extras.length + r.key.length
        + (if r.store then r.value.length else 0), c.buf_tail, c.buf⟩ t = _
    rw [this]
  have e5 := from_proc_send ⟨.STATE_PROC, r.header P, c.buf_head + (r.wire P).length,
    c.buf_tail, c.buf⟩ t hat
  simp only [hhl] at e5
  have hav : avail_bytes ⟨.STATE_PROC, r.header P, c.buf_head + (r.wire P).length, c.buf_tail,
      c.buf⟩ = rest.length := by
    show c.buf_tail - (c.buf_head + (r.wire P).length) = rest.length
    omega
  rw [e1, e2, e3, e4, e5, hav]
  subst ht
  rfl

theorem replied_accepting (P : memcached_h) (r : Request) (s : Sock) (ha : accepting s) :
    accepting (replied P r s) := by
  unfold accepting replied at *
  exact tx_after_takes s.tx HEADER_SIZE ha

/-- The passes of the loop over the requests that are buffered whole. -/
theorem drive_loop_requests (P : memcached_h) (r : Request) (rs : List Request) (fuel : Nat)
    (c : conn) (s : Sock) (hv : ∀ q ∈ r :: rs, q.valid) (ha : accepting s)
    (hbuf : unread c = stream P (r :: rs)) (hfuel : avail_bytes c ≤ fuel) :
    ∃ h tx lg, drive_loop P fuel c s
      = ⟨{ c with state := .STATE_HEADER, header := h,
                  buf_head := c.buf_head + (stream P (r :: rs)).length },
         { s with tx := tx, sent := s.sent ++ responses P (r :: rs), log := lg },
         .returned⟩ := by
  induction rs generalizing r fuel c s with
  | nil =>
    have hb : unread c = r.wire P ++ [] := by simpa [stream] using hbuf
    obtain ⟨h1, -⟩ := pass_request P r [] c s (hv r (by simp)) ha hb
    have hl := (unread_front c _ _ hb).1
    have hwl := wire_length P r
    obtain ⟨n, rfl⟩ : ∃ n, fuel = n + 1 := ⟨fuel - 1, by omega⟩
    unfold drive_loop
    rw [h1, if_neg (by simp [HEADER_SIZE])]
    refine ⟨set_response (r.header P), tx_after s.tx HEADER_SIZE,
      s.log ++ [.copied (r.header P)] ++ [.offered (set_response (r.header P))], ?_⟩
    simp [answered, replied, stream, responses,
      set_response_eq _ (header_length P r)]
  | cons q qs ih =>
    have hb : unread c = r.wire P ++ stream P (q :: qs) := by simpa [stream] using hbuf
    obtain ⟨h1, h2⟩ := pass_request P r _ c s (hv r (by simp)) ha hb
    have hl := (unread_front c _ _ hb).1
    have hwl := wire_length P r
    have hql : HEADER_SIZE ≤ (stream P (q :: qs)).length := by
      have := wire_length P q
      simp only [stream, List.map_cons, List.flatten_cons, List.length_append, HEADER_SIZE]
      omega
    obtain ⟨n, rfl⟩ : ∃ n, fuel = n + 1 := ⟨fuel - 1, by omega⟩
    unfold drive_loop
    rw [h1, if_pos hql]
    simp only
    have hav : avail_bytes (answered P r c) ≤ n := by
      have := congrArg List.length h2
      simp only [unread, read_at_length] at this
      omega
    obtain ⟨h, tx, lg, ih⟩ := ih q n (answered P r c) (replied P r s)
      (fun x hx => hv x (List.mem_cons_of_mem _ hx)) (replied_accepting P r s ha) h2 hav
    refine ⟨h, tx, lg, ?_⟩
    rw [ih]
    simp [answered, replied, stream, responses, set_response_eq _ (header_length P r),
      Nat.add_assoc]

theorem recv_exactly_first (c : conn) (s : Sock) (d : List Nat) (more : List RecvEvent)
    (hh : c.buf_head = 0) (ht : c.buf_tail = 0) (hrx : s.rx = .data d :: more)
    (h1 : HEADER_SIZE ≤ d.length) (h2 : d.length ≤ BUFSIZE) :
    recv_exactly c s HEADER_SIZE
      = recv_exactly { c with buf := write_at c.buf 0 d, buf_tail := d.length }
          { s with rx := more } HEADER_SIZE := by
  have hH : HEADER_SIZE = 24 := rfl
  have hB : BUFSIZE = 2048 := rfl
  have hne : d ≠ [] := by
    intro h
    rw [h] at h1
    simp [HEADER_SIZE] at h1
  rw [recv_fast { c with buf := write_at c.buf 0 d, buf_tail := d.length } _ _
    (by unfold avail_bytes; simp only; omega)]
  have hc : compact c = c := by
    unfold compact
    simp [hh]
  unfold recv_exactly
  rw [if_pos (by unfold avail_bytes; omega)]
  simp only [hc, ht, Nat.sub_zero]
  have hf : recv_fill HEADER_SIZE c s HEADER_SIZE
      = (.one, { c with buf := write_at c.buf 0 d, buf_tail := d.length },
          { s with rx := more }) := by
    have h24 : HEADER_SIZE = 23 + 1 := rfl
    rw [h24]
    unfold recv_fill
    rw [if_pos (by omega), if_pos (by omega), recv_chunk s _ d more hrx hne (by omega)]
    simp only [ht, Nat.zero_add]
    unfold recv_fill
    rw [if_neg (by simp only; omega)]
  rw [hf]

theorem from_header_first (P : memcached_h) (c : conn) (s : Sock) (d : List Nat)
    (more : List RecvEvent) (hh : c.buf_head = 0) (ht : c.buf_tail = 0)
    (hrx : s.rx = .data d :: more) (h1 : HEADER_SIZE ≤ d.length) (h2 : d.length ≤ BUFSIZE) :
    from_header P c s
      = from_header P { c with buf := write_at c.buf 0 d, buf_tail := d.length }
          { s with rx := more } := by
  unfold from_header
  rw [recv_exactly_first c s d more hh ht hrx h1 h2]

theorem unread_first (c : conn) (d : List Nat) (hh : c.buf_head = 0) :
    unread { c with buf := write_at c.buf 0 d, buf_tail := d.length } = d := by
  unfold unread avail_bytes
  simp only [hh, Nat.sub_zero]
  exact read_write_at c.buf 0 d

theorem stream_length_ge (P : memcached_h) (r : Request) (rs : List Request) :
    HEADER_SIZE ≤ (stream P (r :: rs)).length := by
  have := wire_length P r
  simp only [stream, List.map_cons, List.flatten_cons, List.length_append, HEADER_SIZE]
  omega

/-- One call of `drive_machine` on requests that the first `recv` returns whole. -/
theorem drive_machine_requests (P : memcached_h) (r : Request) (rs : List Request)
    (c : conn) (s : Sock) (more : List RecvEvent)
    (hst : c.state = .STATE_HEADER) (hh : c.buf_head = 0) (ht : c.buf_tail = 0)
    (hv : ∀ q ∈ r :: rs, q.valid) (hcap : (stream P (r :: rs)).length ≤ BUFSIZE)
    (hrx : s.rx = .data (stream P (r :: rs)) :: more) (ha : accepting s) :
    ∃ h tx lg, drive_machine P c s
      = ⟨{ state := .STATE_HEADER, header := h, buf_head := (stream P (r :: rs)).length,
           buf_tail := (stream P (r :: rs)).length,
           buf := write_at c.buf 0 (stream P (r :: rs)) },
         { rx := more, tx := tx, sent := s.sent ++ responses P (r :: rs), closed := s.closed,
           log := lg },
         .returned⟩ := by
  have hge := stream_length_ge P r rs
  have hun := unread_first c (stream P (r :: rs)) hh
  have he : enter P c s = from_header P c s := by
    unfold enter
    rw [hst]
  rw [drive_machine_eq, he, from_header_first P c s _ more hh ht hrx hge hcap]
  have ha1 : accepting ({ s with rx := more } : Sock) := ha
  generalize hc1 : ({ c with buf := write_at c.buf 0 (stream P (r :: rs)), buf_tail := (stream P (r :: rs)).length } : conn) = c1 at hun ⊢
  generalize hs1 : ({ s with rx := more } : Sock) = s1 at ha1 ⊢
  cases rs with
  | nil =>
    have hb : r.wire P ++ [] = stream P [r] := by simp [stream]
    have hun := hun.trans hb.symm
    obtain ⟨h1, -⟩ := pass_request P r [] c1 s1 (hv r (by simp)) ha1 hun
    rw [h1, if_neg (by simp [HEADER_SIZE])]
    refine ⟨set_response (r.header P), tx_after s.tx HEADER_SIZE,
      s.log ++ [.copied (r.header P)] ++ [.offered (set_response (r.header P))], ?_⟩
    subst hc1 hs1
    simp [Pass.finish, answered, replied, stream, responses,
      set_response_eq _ (header_length P r), hh]
  | cons q qs =>
    have hb : r.wire P ++ stream P (q :: qs) = stream P (r :: q :: qs) := by simp [stream]
    have hun := hun.trans hb.symm
    obtain ⟨h1, h2⟩ := pass_request P r _ c1 s1 (hv r (by simp)) ha1 hun
    rw [h1, if_pos (stream_length_ge P q qs)]
    obtain ⟨h, tx, lg, hl⟩ := drive_loop_requests P q qs (avail_bytes (answered P r c1))
      (answered P r c1) (replied P r s1)
      (fun x hx => hv x (List.mem_cons_of_mem _ hx)) (replied_accepting P r s1 ha1) h2
      (le_refl _)
    refine ⟨h, tx, lg, ?_⟩
    simp only [Pass.finish]
    rw [hl]
    subst hc1 hs1
    simp [answered, replied, stream, responses, set_response_eq _ (header_length P r), hh,
      Nat.add_assoc]

/-- C2: pipelined requests are answered in order within one call. For every
`k ≥ 2` valid requests whose bytes total at most 2048 and are all returned by
the first `recv`, one call of `drive_machine` on the accepted connection, on a
socket whose every `send` takes at least one byte (all that is offered, or a
partial write), returns normally, has sent exactly one
response header per request, the i-th answering the i-th request, and ends in
`STATE_HEADER` with no unread bytes, having read nothing else. -/
theorem pipelined_requests_answered_in_order (P : memcached_h) (rs : List Request)
    (hmem bmem : Nat → Nat) (s : Sock) (more : List RecvEvent)
    (hk : 2 ≤ rs.length) (hv : ∀ r ∈ rs, r.valid) (hcap : (stream P rs).length ≤ BUFSIZE)
    (hrx : s.rx = .data (stream P rs) :: more) (ha : accepting s) :
    (drive_machine P (accept_conn hmem bmem) s).exit = .returned
      ∧ (drive_machine P (accept_conn hmem bmem) s).sock.sent = s.sent ++ responses P rs
      ∧ (responses P rs).length = HEADER_SIZE * rs.length
      ∧ (drive_machine P (accept_conn hmem bmem) s).conn.state = .STATE_HEADER
      ∧ avail_bytes (drive_machine P (accept_conn hmem bmem) s).conn = 0
      ∧ (drive_machine P (accept_conn hmem bmem) s).sock.rx = more := by
  obtain ⟨r, rs1, rfl⟩ : ∃ r rs1, rs = r :: rs1 := by
    cases rs with
    | nil => simp at hk
    | cons r rs1 => exact ⟨r, rs1, rfl⟩
  obtain ⟨h, tx, lg, he⟩ := drive_machine_requests P r rs1 (accept_conn hmem bmem) s more rfl rfl
    rfl hv hcap hrx ha
  rw [he]
  refine ⟨rfl, rfl, ?_, rfl, by simp [avail_bytes], rfl⟩
  generalize r :: rs1 = l
  induction l with
  | nil => rfl
  | cons a l ih =>
    have : (response_header (a.header P)).length = 24 := by
      simp [response_header, header_length]
    simp only [responses, List.map_cons, List.flatten_cons, List.length_append,
      List.length_cons] at ih ⊢
    rw [ih, this]
    simp [HEADER_SIZE]
    omega

/-! ## The response -/

theorem last_copied_append (cur : Option (List Nat)) (l1 l2 : List IoEvent) :
    last_copied cur (l1 ++ l2) = last_copied (last_copied cur l1) l2 := by
  induction l1 generalizing cur with
  | nil => rfl
  | cons e l ih => cases e <;> simp [last_copied, ih]

theorem answers_own_append (cur : Option (List Nat)) (l1 l2 : List IoEvent) :
    answers_own cur (l1 ++ l2) ↔ answers_own cur l1 ∧ answers_own (last_copied cur l1) l2 := by
  induction l1 generalizing cur with
  | nil => simp [answers_own, last_copied]
  | cons e l ih =>
    cases e with
    | copied h => simp [answers_own, last_copied, ih]
    | offered b =>
      cases cur with
      | none => simp [answers_own]
      | some h => simp [answers_own, last_copied, ih, and_assoc]

/-- A call of `send_exactly` in a log that `answers_own`: its buffer is the
response to the header copied last before it. -/
theorem answers_own_at (cur : Option (List Nat)) (pre post : List IoEvent) (b : List Nat)
    (h : answers_own cur (pre ++ .offered b :: post)) :
    ∃ x, last_copied cur pre = some x ∧ x.length = HEADER_SIZE ∧ b = response_header x := by
  rw [answers_own_append] at h
  obtain ⟨-, h2⟩ := h
  cases hl : last_copied cur pre with
  | none =>
    rw [hl] at h2
    simp [answers_own] at h2
  | some x =>
    rw [hl] at h2
    simp only [answers_own] at h2
    exact ⟨x, rfl, h2.1, h2.2.1⟩

theorem answers_own_copy (l : List IoEvent) (h : List Nat) (ho : answers_own none l) :
    answers_own none (l ++ [.copied h]) ∧ last_copied none (l ++ [.copied h]) = some h := by
  rw [answers_own_append, last_copied_append]
  simp [answers_own, last_copied, ho]

theorem answers_own_offer (l : List IoEvent) (x b : List Nat) (ho : answers_own none l)
    (hl : last_copied none l = some x) (hx : x.length = HEADER_SIZE)
    (hb : b = response_header x) :
    answers_own none (l ++ [.offered b]) ∧ last_copied none (l ++ [.offered b]) = some x := by
  rw [answers_own_append, last_copied_append, hl]
  simp [answers_own, last_copied, ho, hx, hb]

theorem recv_log (s : Sock) (len : Nat) : (recv s len).2.log = s.log := by
  unfold recv
  split <;> try rfl
  simp only
  split <;> rfl

theorem send_log (s : Sock) (bs : List Nat) : (send s bs).2.log = s.log := by
  unfold send
  split
  · split <;> rfl
  · split <;> rfl
  · rfl

theorem handle_ret_log (s : Sock) (r : Res) : (handle_ret s r).2.log = s.log := by
  unfold handle_ret
  split <;> rfl

theorem recv_fill_keeps (fuel : Nat) (c : conn) (s : Sock) (size : Nat) :
    (recv_fill fuel c s size).2.2.log = s.log
      ∧ (recv_fill fuel c s size).2.1.state = c.state
      ∧ (recv_fill fuel c s size).2.1.header = c.header := by
  induction fuel generalizing c s with
  | zero => unfold recv_fill; split <;> simp
  | succ n ih =>
    unfold recv_fill
    split
    · split
      · have hl := recv_log s (BUFSIZE - c.buf_tail)
        split
        · rename_i bs s1 hr
          rw [hr] at hl
          obtain ⟨h1, h2, h3⟩ := ih
            { c with buf := write_at c.buf c.buf_tail bs, buf_tail := c.buf_tail + bs.length } s1
          exact ⟨h1.trans hl, h2, h3⟩
        · rename_i s1 hr
          rw [hr] at hl
          exact ⟨hl, rfl, rfl⟩
        · rename_i e s1 hr
          rw [hr] at hl
          exact ⟨hl, rfl, rfl⟩
      · exact ⟨rfl, rfl, rfl⟩
    · exact ⟨rfl, rfl, rfl⟩

theorem compact_keeps (c : conn) :
    (compact c).state = c.state ∧ (compact c).header = c.header := by
  unfold compact
  split <;> exact ⟨rfl, rfl⟩

/-- What `recv_exactly` leaves alone, on every connection and socket, and the
length of what it copies out. -/
theorem recv_exactly_keeps (c : conn) (s : Sock) (size : Nat) :
    (recv_exactly c s size).sock.log = s.log
      ∧ (recv_exactly c s size).conn.state = c.state
      ∧ (recv_exactly c s size).conn.header = c.header
      ∧ ((recv_exactly c s size).ret = .one → (recv_exactly c s size).out.length = size) := by
  unfold recv_exactly
  split
  · obtain ⟨h1, h2, h3⟩ := recv_fill_keeps (size - (compact c).buf_tail) (compact c) s size
    obtain ⟨k1, k2⟩ := compact_keeps c
    rcases hx : recv_fill (size - (compact c).buf_tail) (compact c) s size with ⟨r, c2, s2⟩
    rw [hx] at h1 h2 h3
    simp only at h1 h2 h3 ⊢
    cases r <;> simp_all [read_at_length]
  · simp [read_at_length]

theorem drain_loop_log (fuel : Nat) (s : Sock) (left : Nat) :
    (drain_loop fuel s left).2.log = s.log := by
  induction fuel generalizing s left with
  | zero => unfold drain_loop; split <;> rfl
  | succ n ih =>
    unfold drain_loop
    split
    · have hl := recv_log s left
      split
      · rename_i bs s1 hr
        rw [hr] at hl
        exact (ih s1 _).trans hl
      · rename_i s1 hr
        rw [hr] at hl
        exact hl
      · rename_i e s1 hr
        rw [hr] at hl
        exact hl
    · rfl

theorem drain_exactly_log (c : conn) (s : Sock) (size : Nat) :
    (drain_exactly c s size).2.2.log = s.log := by
  unfold drain_exactly
  split
  · simp only
    split
    · exact drain_loop_log _ s _
    · rfl
  · rfl

theorem send_loop_log (fuel : Nat) (s : Sock) (bs : List Nat) (part : Nat) :
    (send_loop fuel s bs part).2.log = s.log := by
  induction fuel generalizing s part with
  | zero => unfold send_loop; split <;> rfl
  | succ n ih =>
    unfold send_loop
    split
    · have hl := send_log s (bs.drop part)
      split
      · rename_i k s1 hr
        rw [hr] at hl
        exact (ih s1 _).trans hl
      · rename_i s1 hr
        rw [hr] at hl
        exact hl
      · rename_i e s1 hr
        rw [hr] at hl
        exact hl
    · rfl

theorem send_exactly_log (s : Sock) (bs : List Nat) :
    (send_exactly s bs).2.log = s.log ++ [.offered bs] := by
  unfold send_exactly
  exact send_loop_log _ _ bs 0

theorem state_own_mid (c : conn) (l : List IoEvent) (h1 : c.state ≠ .STATE_HEADER)
    (h2 : c.state ≠ .STATE_RESPONSE) (hl : last_copied none l = some c.header)
    (hlen : c.header.length = HEADER_SIZE) : state_own c l := by
  unfold state_own
  cases hc : c.state <;> simp_all

/-- Lines 178-185 keep the log: the header offered is the response to the
header copied last. -/
theorem from_response_own (c : conn) (s : Sock) (ho : answers_own none s.log) (x : List Nat)
    (hl : last_copied none s.log = some x) (hx : x.length = HEADER_SIZE)
    (hh : c.header = response_header x) (hst : c.state = .STATE_RESPONSE) :
    (from_response c s).own := by
  unfold from_response
  have hlog := send_exactly_log s c.header
  rcases hs : send_exactly s c.header with ⟨r, s1⟩
  rw [hs] at hlog
  simp only at hlog ⊢
  have hh2 := handle_ret_log s1 r
  rcases hy : handle_ret s1 r with ⟨o, s2⟩
  rw [hy] at hh2
  simp only at hh2
  obtain ⟨k1, k2⟩ := answers_own_offer s.log x c.header ho hl hx hh
  rw [← hlog, ← hh2] at k1 k2
  cases o with
  | some e =>
    refine ⟨k1, fun _ => ?_⟩
    show state_own c s2.log
    unfold state_own
    rw [hst]
    exact ⟨x, k2, hx, hh⟩
  | none =>
    have he : ends_offered s2.log := Or.inr ⟨s.log, c.header, by rw [hh2, hlog]⟩
    simp only
    split
    · exact ⟨rfl, k1, he⟩
    · exact ⟨k1, fun _ => he⟩

theorem from_proc_own (c : conn) (s : Sock) (ho : answers_own none s.log)
    (hl : last_copied none s.log = some c.header) (hlen : c.header.length = HEADER_SIZE) :
    (from_proc c s).own := by
  unfold from_proc process_request
  exact from_response_own _ s ho c.header hl hlen (set_response_eq _ hlen) rfl

/-- A call of `drain_exactly` between the header and the response keeps the
log, the state and the header. -/
theorem drain_then_own (c : conn) (s : Sock) (size : Nat) (k : conn → Sock → Pass)
    (ho : answers_own none s.log) (hl : last_copied none s.log = some c.header)
    (hlen : c.header.length = HEADER_SIZE) (h1 : c.state ≠ .STATE_HEADER)
    (h2 : c.state ≠ .STATE_RESPONSE)
    (hk : ∀ c1 s1, c1.header = c.header → s1.log = s.log → (k c1 s1).own) :
    (match handle_ret (drain_exactly c s size).2.2 (drain_exactly c s size).1 with
      | (some e, s1) => .done ⟨(drain_exactly c s size).2.1, s1, e⟩
      | (none, s1) => k (drain_exactly c s size).2.1 s1 : Pass).own := by
  obtain ⟨-, d2, d3, -⟩ := drain_exactly_spec c s size
  have d4 := drain_exactly_log c s size
  rcases hx : drain_exactly c s size with ⟨r, c1, s1⟩
  rw [hx] at d2 d3 d4
  simp only at d2 d3 d4 ⊢
  have hh := handle_ret_log s1 r
  rcases hy : handle_ret s1 r with ⟨o, s2⟩
  rw [hy] at hh
  simp only at hh
  have hlog : s2.log = s.log := hh.trans d4
  cases o with
  | some e =>
    refine ⟨by rw [hlog]; exact ho, fun _ => ?_⟩
    show state_own c1 s2.log
    rw [hlog]
    exact state_own_mid c1 s.log (by rw [d2]; exact h1) (by rw [d2]; exact h2)
      (by rw [d3]; exact hl) (by rw [d3]; exact hlen)
  | none => exact hk c1 s2 d3 hlog

theorem from_value_own (P : memcached_h) (c : conn) (s : Sock) (ho : answers_own none s.log)
    (hl : last_copied none s.log = some c.header) (hlen : c.header.length = HEADER_SIZE)
    (h1 : c.state ≠ .STATE_HEADER) (h2 : c.state ≠ .STATE_RESPONSE) :
    (from_value P c s).own := by
  unfold from_value
  split
  · exact drain_then_own c s _ (fun c1 s1 => from_proc { c1 with state := .STATE_PROC } s1)
      ho hl hlen h1 h2 (fun c1 s1 e1 e2 =>
        from_proc_own _ s1 (by rw [e2]; exact ho) (by rw [e2]; exact hl.trans (by rw [← e1]))
          (by rw [← e1] at hlen; exact hlen))
  · split
    · exact from_proc_own _ s ho hl hlen
    · exact ⟨ho, fun h => by simp at h⟩

theorem from_key_own (P : memcached_h) (c : conn) (s : Sock) (ho : answers_own none s.log)
    (hl : last_copied none s.log = some c.header) (hlen : c.header.length = HEADER_SIZE)
    (h1 : c.state ≠ .STATE_HEADER) (h2 : c.state ≠ .STATE_RESPONSE) :
    (from_key P c s).own := by
  unfold from_key
  exact drain_then_own c s _ (fun c1 s1 => from_value P { c1 with state := .STATE_VALUE } s1)
    ho hl hlen h1 h2 (fun c1 s1 e1 e2 =>
      from_value_own P _ s1 (by rw [e2]; exact ho) (by rw [e2]; exact hl.trans (by rw [← e1]))
        (by rw [← e1] at hlen; exact hlen) (by simp) (by simp))

theorem from_extra_own (P : memcached_h) (c : conn) (s : Sock) (ho : answers_own none s.log)
    (hl : last_copied none s.log = some c.header) (hlen : c.header.length = HEADER_SIZE)
    (h1 : c.state ≠ .STATE_HEADER) (h2 : c.state ≠ .STATE_RESPONSE) :
    (from_extra P c s).own := by
  unfold from_extra
  exact drain_then_own c s _ (fun c1 s1 => from_key P { c1 with state := .STATE_KEY } s1)
    ho hl hlen h1 h2 (fun c1 s1 e1 e2 =>
      from_key_own P _ s1 (by rw [e2]; exact ho) (by rw [e2]; exact hl.trans (by rw [← e1]))
        (by rw [← e1] at hlen; exact hlen) (by simp) (by simp))

/-- A pass from `next_request` keeps the log. -/
theorem from_header_own (P : memcached_h) (c : conn) (s : Sock) (hst : c.state = .STATE_HEADER)
    (ho : answers_own none s.log) (he : ends_offered s.log) : (from_header P c s).own := by
  unfold from_header
  obtain ⟨r1, r2, -, r4⟩ := recv_exactly_keeps c s HEADER_SIZE
  rcases hx : recv_exactly c s HEADER_SIZE with ⟨r, c1, s1, out⟩
  rw [hx] at r1 r2 r4
  simp only at r1 r2 r4 ⊢
  have hh := handle_ret_log s1 r
  have hn := handle_ret_none s1 r
  rcases hy : handle_ret s1 r with ⟨o, s2⟩
  rw [hy] at hh hn
  simp only at hh hn
  have hlog : s2.log = s.log := hh.trans r1
  cases o with
  | some e =>
    refine ⟨by rw [hlog]; exact ho, fun _ => ?_⟩
    show state_own c1 s2.log
    unfold state_own
    rw [r2, hst, hlog]
    exact he
  | none =>
    have hout : out.length = HEADER_SIZE := r4 (hn.mp rfl)
    obtain ⟨k1, k2⟩ := answers_own_copy s.log out ho
    rw [← hlog] at k1 k2
    simp only
    split
    · exact from_extra_own P _ _ k1 k2 hout (by simp) (by simp)
    · exact ⟨k1, fun h => by simp at h⟩

theorem drive_loop_own (P : memcached_h) (fuel : Nat) (c : conn) (s : Sock)
    (hst : c.state = .STATE_HEADER) (ho : answers_own none s.log) (he : ends_offered s.log) :
    (Pass.done (drive_loop P fuel c s)).own := by
  induction fuel generalizing c s with
  | zero =>
    unfold drive_loop
    exact ⟨ho, fun h => by simp at h⟩
  | succ n ih =>
    unfold drive_loop
    have h := from_header_own P c s hst ho he
    cases hp : from_header P c s with
    | done r =>
      rw [hp] at h
      exact h
    | again c1 s1 =>
      rw [hp] at h
      exact ih c1 s1 h.1 h.2.1 h.2.2

theorem enter_own (P : memcached_h) (c : conn) (s : Sock) (ho : answers_own none s.log)
    (hs : state_own c s.log) : (enter P c s).own := by
  unfold enter
  unfold state_own at hs
  cases hc : c.state <;> rw [hc] at hs <;> simp only at hs ⊢
  · exact from_header_own P c s hc ho hs
  · exact from_extra_own P c s ho hs.1 hs.2 (by simp [hc]) (by simp [hc])
  · exact from_key_own P c s ho hs.1 hs.2 (by simp [hc]) (by simp [hc])
  · exact from_value_own P c s ho hs.1 hs.2 (by simp [hc]) (by simp [hc])
  · exact from_proc_own c s ho hs.1 hs.2
  · obtain ⟨x, x1, x2, x3⟩ := hs
    exact from_response_own c s ho x x1 x2 x3 hc

/-- A call of `drive_machine` keeps the log, however it ends, and leaves the
header as its state says when it returns. -/
theorem drive_machine_own (P : memcached_h) (c : conn) (s : Sock)
    (ho : answers_own none s.log) (hs : state_own c s.log) :
    answers_own none (drive_machine P c s).sock.log
      ∧ ((drive_machine P c s).exit = .returned →
          state_own (drive_machine P c s).conn (drive_machine P c s).sock.log) := by
  rw [drive_machine_eq]
  have h := enter_own P c s ho hs
  cases hp : enter P c s with
  | done r =>
    rw [hp] at h
    exact h
  | again c1 s1 =>
    rw [hp] at h
    exact drive_loop_own P _ c1 s1 h.1 h.2.1 h.2.2

theorem trace_own (P : memcached_h) (c : conn) (s : Sock) (ht : Trace P c s) :
    answers_own none s.log ∧ state_own c s.log := by
  induction ht with
  | accepted hmem bmem rx tx => exact ⟨trivial, Or.inl rfl⟩
  | driven c s rx tx _ hr ih =>
    obtain ⟨h1, h2⟩ := drive_machine_own P c s ih.1 ih.2
    exact ⟨h1, h2 hr⟩

/-- C3: the response is the request's own header with magic, status and body
length rewritten. Take any execution of a connection: accepted, then driven
by any number of calls of `drive_machine` that returned, with any results of
`recv` and `send` in each call (data in any pieces, would-block, shutdown,
errors, partial writes), and one more call from any state so reached,
`STATE_RESPONSE` included. (1) Every buffer `b` that this execution passes to
`send_exactly` is the response to the header `h` that `recv_exactly` copied
into `conn->header` last before that call: `h` has 24 bytes and `b` is `h`
with magic 0x81, status bytes 00 01, body length 0 and the bytes of opcode,
key length, extras length, data type, opaque and cas unchanged. (2) When the
call returns with the machine in `STATE_HEADER`, so that every request read
is completed, the last thing the execution did with a header was to pass it
to `send_exactly`, or no header was read at all. -/
theorem response_is_own_header (P : memcached_h) (c : conn) (s : Sock) (ht : Trace P c s) :
    (∀ pre b post, (drive_machine P c s).sock.log = pre ++ .offered b :: post →
        ∃ h, last_copied none pre = some h ∧ h.length = HEADER_SIZE
          ∧ b = response_header h)
      ∧ ((drive_machine P c s).exit = .returned →
          (drive_machine P c s).conn.state = .STATE_HEADER →
          ends_offered (drive_machine P c s).sock.log) := by
  obtain ⟨ho, hs⟩ := trace_own P c s ht
  obtain ⟨h1, h2⟩ := drive_machine_own P c s ho hs
  refine ⟨fun pre b post hlog => ?_, fun hr hst => ?_⟩
  · rw [hlog] at h1
    exact answers_own_at none pre post b h1
  · have := h2 hr
    unfold state_own at this
    rw [hst] at this
    exact this

/-! ## Aborts -/

/-- How far the failed assertions of lines 146 and 167 reach. For every
connection in `STATE_HEADER` that keeps the cursor invariant and every socket:
when the first `recv_exactly` of a call returns 1 with a header whose magic is
not 0x80, `drive_machine` fails `assert(conn->header.magic == 0x80)`; when
the magic is 0x80, the opcode is neither `CMD_SET` nor `CMD_GET` and the
extras and key are buffered behind the header, it fails
`assert(conn->header.opcode == CMD_GET)`. The call does not return, and it
neither closes the connection nor sends anything. -/
theorem malformed_header_aborts (P : memcached_h) (c : conn) (s : Sock)
    (hc : cursor_ok c) (hst : c.state = .STATE_HEADER)
    (hone : (recv_exactly c s HEADER_SIZE).ret = .one) :
    (hdr_magic (recv_exactly c s HEADER_SIZE).out ≠ 0x80 →
        (drive_machine P c s).exit = .aborted 146
          ∧ (drive_machine P c s).sock.closed = s.closed
          ∧ (drive_machine P c s).sock.sent = s.sent)
      ∧ (hdr_magic (recv_exactly c s HEADER_SIZE).out = 0x80 →
          hdr_opcode (recv_exactly c s HEADER_SIZE).out ≠ P.CMD_SET →
          hdr_opcode (recv_exactly c s HEADER_SIZE).out ≠ P.CMD_GET →
          hdr_extra_len (recv_exactly c s HEADER_SIZE).out
              + bswap16 (hdr_key_len (recv_exactly c s HEADER_SIZE).out)
            ≤ avail_bytes (recv_exactly c s HEADER_SIZE).conn →
          (drive_machine P c s).exit = .aborted 167
            ∧ (drive_machine P c s).sock.closed = s.closed
            ∧ (drive_machine P c s).sock.sent = s.sent) := by
  obtain ⟨-, -, -, h4, -, h6, -, -, -⟩ := recv_exactly_spec c s HEADER_SIZE hc
  have he : enter P c s = from_header P c s := by
    unfold enter
    rw [hst]
  rw [drive_machine_eq, he]
  unfold from_header
  simp only
  rcases hx : recv_exactly c s HEADER_SIZE with ⟨r, c1, s1, out⟩
  rw [hx] at h4 h6 hone
  simp only at h4 h6 hone ⊢
  subst hone
  simp only [handle_ret]
  constructor
  · intro hm
    rw [if_neg hm]
    exact ⟨rfl, h6, h4⟩
  · intro hm hs hg hlen
    rw [if_pos hm]
    rw [from_extra_fast P _ _ (by
      show hdr_extra_len out ≤ avail_bytes c1
      omega)]
    rw [from_key_fast P _ _ (by
      show bswap16 (hdr_key_len out) ≤ c1.buf_tail - (c1.buf_head + hdr_extra_len out)
      unfold avail_bytes at hlen
      omega)]
    unfold from_value
    simp only
    rw [if_neg hs, if_neg hg]
    exact ⟨rfl, h6, h4⟩

/-- How far the failed assertion of line 95 reaches. For every connection
that keeps the cursor invariant and every socket: (1) when the first
`recv_exactly` of a call in `STATE_HEADER` returns the header of a store
request with the extras and key buffered behind it, and the declared value
length exceeds the value bytes buffered by 2048 or more, `drive_machine`
fails `assert(left < sizeof(buf))`; (2) so does a call that resumes in
`STATE_VALUE` with such a header. The call does not return, and it neither
closes the connection nor sends or reads anything more. -/
theorem oversized_value_aborts (P : memcached_h) (c : conn) (s : Sock) (hc : cursor_ok c) :
    (c.state = .STATE_HEADER → (recv_exactly c s HEADER_SIZE).ret = .one →
        hdr_magic (recv_exactly c s HEADER_SIZE).out = 0x80 →
        hdr_opcode (recv_exactly c s HEADER_SIZE).out = P.CMD_SET →
        hdr_extra_len (recv_exactly c s HEADER_SIZE).out
            + bswap16 (hdr_key_len (recv_exactly c s HEADER_SIZE).out)
          ≤ avail_bytes (recv_exactly c s HEADER_SIZE).conn →
        avail_bytes (recv_exactly c s HEADER_SIZE).conn
            - hdr_extra_len (recv_exactly c s HEADER_SIZE).out
            - bswap16 (hdr_key_len (recv_exactly c s HEADER_SIZE).out) + 2048
          ≤ value_len (recv_exactly c s HEADER_SIZE).out →
        (drive_machine P c s).exit = .aborted 95
          ∧ (drive_machine P c s).sock.closed = s.closed
          ∧ (drive_machine P c s).sock.sent = s.sent
          ∧ (drive_machine P c s).sock.rx = (recv_exactly c s HEADER_SIZE).sock.rx)
      ∧ (c.state = .STATE_VALUE → hdr_opcode c.header = P.CMD_SET →
          avail_bytes c + 2048 ≤ value_len c.header →
          (drive_machine P c s).exit = .aborted 95 ∧ (drive_machine P c s).sock = s) := by
  constructor
  · intro hst hone
    obtain ⟨-, -, -, h4, -, h6, -, -, -⟩ := recv_exactly_spec c s HEADER_SIZE hc
    have he : enter P c s = from_header P c s := by
      unfold enter
      rw [hst]
    rw [drive_machine_eq, he]
    unfold from_header
    simp only
    rcases hx : recv_exactly c s HEADER_SIZE with ⟨r, c1, s1, out⟩
    rw [hx] at h4 h6 hone
    simp only at h4 h6 hone ⊢
    subst hone
    simp only [handle_ret]
    intro hm hs hlen hbig
    rw [if_pos hm]
    rw [from_extra_fast P _ _ (by
      show hdr_extra_len out ≤ avail_bytes c1
      omega)]
    rw [from_key_fast P _ _ (by
      show bswap16 (hdr_key_len out) ≤ c1.buf_tail - (c1.buf_head + hdr_extra_len out)
      unfold avail_bytes at hlen
      omega)]
    unfold from_value
    simp only
    rw [if_pos hs]
    unfold drain_exactly
    simp only [avail_bytes] at hbig hlen ⊢
    rw [if_pos (by omega), if_neg (by omega)]
    simp only [handle_ret]
    exact ⟨rfl, h6, h4, rfl⟩
  · intro hst hs hbig
    have he : enter P c s = from_value P c s := by
      unfold enter
      rw [hst]
    rw [drive_machine_eq, he]
    unfold from_value
    rw [if_pos hs]
    unfold drain_exactly
    rw [if_pos (by omega)]
    dsimp only
    rw [if_neg (by omega)]
    exact ⟨rfl, rfl⟩

/-! ## The lock -/

theorem set_pc_self (pc : Nat → Pc) (w : Nat) (p : Pc) : set_pc pc w p w = p := by
  simp [set_pc]

theorem set_pc_other (pc : Nat → Pc) (w : Nat) (p : Pc) (i : Nat) (h : i ≠ w) :
    set_pc pc w p i = pc i := by
  simp [set_pc, h]

/-- A worker moves and the lock follows: it is 1 when the worker now holds
it, 0 when the worker gave it up, and what it was otherwise. A worker comes
to hold the lock only when the lock was free or was its own. -/
theorem lock_ok_set (st : Shared) (l : Int) (w : Nat) (p : Pc) (h : lock_ok st)
    (hl : l = if p.holds = true then 1 else if (st.pc w).holds = true then 0 else st.lock)
    (hp : p.holds = true → st.lock = 0 ∨ (st.pc w).holds = true) :
    lock_ok { st with lock := l, pc := set_pc st.pc w p } := by
  unfold lock_ok at *
  simp only
  by_cases hph : p.holds = true
  · rw [if_pos hph] at hl
    refine Or.inr ⟨hl, w, by rw [set_pc_self]; exact hph, fun i hi => ?_⟩
    rw [set_pc_other _ _ _ _ hi]
    rcases h with ⟨-, h2⟩ | ⟨h1, w0, h3, h4⟩
    · exact h2 i
    · have hw : (st.pc w).holds = true := by
        rcases hp hph with h0 | h0
        · rw [h0] at h1
          simp at h1
        · exact h0
      have : w = w0 := by
        by_contra hne
        have := h4 w hne
        rw [hw] at this
        simp at this
      exact h4 i (by rw [← this]; exact hi)
  · rw [if_neg hph] at hl
    have hpf : p.holds = false := by simpa using hph
    by_cases hw : (st.pc w).holds = true
    · rw [if_pos hw] at hl
      refine Or.inl ⟨hl, fun i => ?_⟩
      by_cases hi : i = w
      · rw [hi, set_pc_self]
        exact hpf
      · rw [set_pc_other _ _ _ _ hi]
        rcases h with ⟨-, h2⟩ | ⟨-, w0, h3, h4⟩
        · exact h2 i
        · have : w = w0 := by
            by_contra hne
            have := h4 w hne
            rw [hw] at this
            simp at this
          exact h4 i (by rw [← this]; exact hi)
    · rw [if_neg hw] at hl
      rcases h with ⟨h1, h2⟩ | ⟨h1, w0, h3, h4⟩
      · refine Or.inl ⟨hl.trans h1, fun i => ?_⟩
        by_cases hi : i = w
        · rw [hi, set_pc_self]
          exact hpf
        · rw [set_pc_other _ _ _ _ hi]
          exact h2 i
      · have hne : w0 ≠ w := by
          intro he
          rw [he] at h3
          exact hw h3
        refine Or.inr ⟨hl.trans h1, w0, by rw [set_pc_other _ _ _ _ hne]; exact h3, fun i hi => ?_⟩
        by_cases hiw : i = w
        · rw [hiw, set_pc_self]
          exact hpf
        · rw [set_pc_other _ _ _ _ hiw]
          exact h4 i hi

theorem lock_ok_values (st : Shared) (h : lock_ok st) : st.lock = 0 ∨ st.lock = 1 := by
  rcases h with ⟨h1, -⟩ | ⟨h1, -⟩
  · exact Or.inl h1
  · exact Or.inr h1

/-- Every event keeps the lock right. -/
theorem shared_step_lock_ok (P : memcached_h) (st : Shared) (e : Event) (h : lock_ok st) :
    lock_ok (shared_step P st e) := by
  cases e with
  | arrive d =>
    simp only [shared_step]
    split
    · exact h
    · exact h
  | wake w =>
    simp only [shared_step]
    split
    · rename_i hc
      exact lock_ok_set st st.lock w .woken h (by simp [Pc.holds, hc.2]) (by simp [Pc.holds])
    · exact h
  | step w =>
    simp only [shared_step]
    split
    · cases hp : st.pc w with
      | waiting => exact h
      | woken =>
        simp only
        by_cases h0 : st.lock = 0
        · exact lock_ok_set st _ w _ h (by simp [try_lock, h0, Pc.holds])
            (by simp [h0])
        · exact lock_ok_set st _ w _ h (by simp [try_lock, h0, Pc.holds, hp])
            (by simp [try_lock, h0, Pc.holds])
      | locked =>
        simp only
        have h1 : st.lock = 1 := by
          rcases h with ⟨-, h2⟩ | ⟨h1, -⟩
          · have := h2 w
            rw [hp] at this
            simp [Pc.holds] at this
          · exact h1
        exact lock_ok_set st st.lock w .drove h (by simp [Pc.holds, h1])
          (by simp [Pc.holds, hp])
      | drove =>
        simp only
        exact lock_ok_set st _ w .waiting h (by simp [Pc.holds, hp, unlock])
          (by simp [Pc.holds])
    · exact h

theorem shared_run_lock_ok (P : memcached_h) (st : Shared) (evs : List Event)
    (h : lock_ok st) : lock_ok (shared_run P st evs) := by
  unfold shared_run
  induction evs generalizing st with
  | nil => exact h
  | cons e es ih => exact ih (shared_step P st e) (shared_step_lock_ok P st e h)

theorem shared_accept_lock_ok (hmem bmem : Nat → Nat) (s : Sock) :
    lock_ok (shared_accept hmem bmem s) :=
  Or.inl ⟨rfl, fun _ => rfl⟩

/-- C9 as it holds: the lock lets one worker at a time drive the connection.
Take any number of workers and any interleaving of arrivals, wake-ups and
worker steps after `accept`, with `try_lock` and `unlock` as atomic steps,
and let `st` be the state reached. (1) No two workers are between a
successful `try_lock` and the matching `unlock`. (2) The lock is 0 or 1, and
it is 1 exactly when some worker is between the two. (3) For a worker about
to call `try_lock`: when the lock is 0 the call returns 1 and sets the lock
to 1; when the lock is held the call returns 0, and the worker goes back to
waiting without any effect on the lock, the connection, the socket or the
list of `drive_machine` calls. (4) An event that calls `drive_machine` is a
step of the worker that holds the lock. -/
theorem lock_excludes_workers (P : memcached_h) (hmem bmem : Nat → Nat) (s : Sock)
    (evs : List Event) (st : Shared)
    (hst : st = shared_run P (shared_accept hmem bmem s) evs) :
    (∀ i j, (st.pc i).holds = true → (st.pc j).holds = true → i = j)
      ∧ (st.lock = 0 ∨ st.lock = 1)
      ∧ (st.lock = 1 ↔ ∃ w, (st.pc w).holds = true)
      ∧ (∀ w, st.alive = true → st.pc w = .woken →
          (st.lock = 0 →
            (try_lock st.lock).1 = 1
              ∧ (shared_step P st (.step w)).lock = 1
              ∧ (shared_step P st (.step w)).pc w = .locked)
          ∧ (st.lock ≠ 0 →
              (try_lock st.lock).1 = 0
                ∧ (shared_step P st (.step w)).lock = st.lock
                ∧ (shared_step P st (.step w)).pc w = .waiting
                ∧ (shared_step P st (.step w)).conn = st.conn
                ∧ (shared_step P st (.step w)).sock = st.sock
                ∧ (shared_step P st (.step w)).ran = st.ran))
      ∧ (∀ e, (shared_step P st e).ran ≠ st.ran →
          ∃ w, e = .step w ∧ st.pc w = .locked ∧ st.lock = 1
            ∧ (shared_step P st e).ran = st.ran ++ [w]) := by
  have h : lock_ok st := by
    rw [hst]
    exact shared_run_lock_ok P _ evs (shared_accept_lock_ok hmem bmem s)
  refine ⟨?_, lock_ok_values st h, ?_, ?_, ?_⟩
  · intro i j hi hj
    rcases h with ⟨-, h2⟩ | ⟨-, w0, -, h4⟩
    · rw [h2 i] at hi
      simp at hi
    · have e1 : i = w0 := by
        by_contra hne
        rw [h4 i hne] at hi
        simp at hi
      have e2 : j = w0 := by
        by_contra hne
        rw [h4 j hne] at hj
        simp at hj
      rw [e1, e2]
  · constructor
    · intro h1
      rcases h with ⟨h0, -⟩ | ⟨-, w0, h3, -⟩
      · rw [h0] at h1
        simp at h1
      · exact ⟨w0, h3⟩
    · rintro ⟨w, hw⟩
      rcases h with ⟨-, h2⟩ | ⟨h1, -⟩
      · rw [h2 w] at hw
        simp at hw
      · exact h1
  · intro w ha hp
    constructor
    · intro h0
      simp [shared_step, ha, hp, try_lock, h0, set_pc]
    · intro h0
      simp [shared_step, ha, hp, try_lock, h0, set_pc]
  · intro e he
    cases e with
    | arrive d =>
      exfalso
      apply he
      simp only [shared_step]
      split <;> rfl
    | wake w =>
      exfalso
      apply he
      simp only [shared_step]
      split <;> rfl
    | step w =>
      by_cases ha : st.alive = true
      · cases hp : st.pc w with
        | waiting =>
          exfalso
          apply he
          simp [shared_step, ha, hp]
        | woken =>
          exfalso
          apply he
          simp [shared_step, ha, hp]
        | locked =>
          have h1 : st.lock = 1 := by
            rcases h with ⟨-, h2⟩ | ⟨h1, -⟩
            · have := h2 w
              rw [hp] at this
              simp [Pc.holds] at this
            · exact h1
          refine ⟨w, rfl, hp, h1, ?_⟩
          simp [shared_step, ha, hp]
        | drove =>
          exfalso
          apply he
          simp [shared_step, ha, hp]
      · exfalso
        apply he
        simp [shared_step, ha]

/-! ## Concrete runs -/

/-- C1, evaluated at the failing input: the store request of the scenario
(40 bytes) followed by the fetch request. Delivered in one piece they get two
responses. With the store request cut after 28 bytes (inside its extras) the
first call blocks in `drain_exactly`; the second call starts the discard of
the 8 extras over again, so that 4 bytes are counted twice, and after the
second delivery nothing has been sent and the machine waits in `STATE_VALUE`
with nothing left to read. The fetch request that follows is eaten as value
bytes: only the store's response is ever sent. -/
theorem chunked_delivery_loses_response :
    (serve binary_protocol (accept_conn zeroes zeroes) idle
        [stream binary_protocol [store_example, fetch_example]]).sock.sent
      = responses binary_protocol [store_example, fetch_example]
    ∧ (serve binary_protocol (accept_conn zeroes zeroes) idle
        [(store_example.wire binary_protocol).take 28,
         (store_example.wire binary_protocol).drop 28,
         fetch_example.wire binary_protocol]).sock.sent
      = response_header (store_example.header binary_protocol)
    ∧ (serve binary_protocol (accept_conn zeroes zeroes) idle
        [(store_example.wire binary_protocol).take 28,
         (store_example.wire binary_protocol).drop 28]).sock.sent = []
    ∧ (serve binary_protocol (accept_conn zeroes zeroes) idle
        [(store_example.wire binary_protocol).take 28,
         (store_example.wire binary_protocol).drop 28]).conn.state = .STATE_VALUE
    ∧ (serve binary_protocol (accept_conn zeroes zeroes) idle
        [(store_example.wire binary_protocol).take 28,
         (store_example.wire binary_protocol).drop 28]).sock.rx = [] := by
  decide

/-- C5, evaluated at the failing input: the stream `1 2 3 4` arrives as
`1 2 3` and then `4`. `recv_exactly(1)` returns `1`. `recv_exactly(3)` finds
two unread bytes behind `buf_head = 1`, and its `memmove` copies `buf_head`
bytes, one, instead of the two unread ones: it returns `2 2 4`, not `2 3 4`. -/
theorem compaction_corrupts_unread_bytes :
    (recv_exactly (accept_conn zeroes zeroes) (deliver (deliver idle [1, 2, 3]) [4]) 1).ret
      = .one
    ∧ (recv_exactly (accept_conn zeroes zeroes) (deliver (deliver idle [1, 2, 3]) [4]) 1).out
      = [1]
    ∧ (recv_exactly
        (recv_exactly (accept_conn zeroes zeroes) (deliver (deliver idle [1, 2, 3]) [4]) 1).conn
        (recv_exactly (accept_conn zeroes zeroes) (deliver (deliver idle [1, 2, 3]) [4]) 1).sock
        3).ret = .one
    ∧ (recv_exactly
        (recv_exactly (accept_conn zeroes zeroes) (deliver (deliver idle [1, 2, 3]) [4]) 1).conn
        (recv_exactly (accept_conn zeroes zeroes) (deliver (deliver idle [1, 2, 3]) [4]) 1).sock
        3).out = [2, 2, 4] := by
  decide

/-- C10, evaluated at the failing input: one valid store request of 1025
bytes, delivered whole to the accepted connection. The call answers it and
returns in `STATE_HEADER` with `buf_head = buf_tail = 1025`. The next call's
`recv_exactly(conn, &conn->header, 24)` compacts (fewer than 24 bytes unread,
`buf_head ≠ 0`) and its `memmove` reads `buf[1025 .. 2050)`, past
`BUFSIZE = 2048`. -/
theorem compaction_reads_past_buffer :
    large_store.valid
    ∧ (drive_machine binary_protocol (accept_conn zeroes zeroes)
        (deliver idle (large_store.wire binary_protocol))).exit = .returned
    ∧ (drive_machine binary_protocol (accept_conn zeroes zeroes)
        (deliver idle (large_store.wire binary_protocol))).conn.state = .STATE_HEADER
    ∧ (drive_machine binary_protocol (accept_conn zeroes zeroes)
        (deliver idle (large_store.wire binary_protocol))).conn.buf_head = 1025
    ∧ compaction_due (drive_machine binary_protocol (accept_conn zeroes zeroes)
        (deliver idle (large_store.wire binary_protocol))).conn HEADER_SIZE
    ∧ ¬ compaction_in_bounds (drive_machine binary_protocol (accept_conn zeroes zeroes)
        (deliver idle (large_store.wire binary_protocol))).conn := by
  decide!

/-- C7, evaluated at the failing inputs. A header of 24 zero bytes (magic
0x00) fails `assert(conn->header.magic == 0x80)` (line 146), and a header
with magic 0x80 and opcode 0x02 fails `assert(conn->header.opcode == CMD_GET)`
(line 167): `drive_machine` does not return, and the connection is not
closed. The header of zero bytes that arrives behind the valid fetch request
fails line 146 all the same, once the fetch request has been answered. -/
theorem malformed_header_not_closed :
    (drive_machine binary_protocol (accept_conn zeroes zeroes)
        (deliver idle (List.replicate 24 0))).exit = .aborted 146
    ∧ (drive_machine binary_protocol (accept_conn zeroes zeroes)
        (deliver idle (List.replicate 24 0))).sock.closed = false
    ∧ (drive_machine binary_protocol (accept_conn zeroes zeroes)
        (deliver idle unknown_opcode_header)).exit = .aborted 167
    ∧ (drive_machine binary_protocol (accept_conn zeroes zeroes)
        (deliver idle unknown_opcode_header)).sock.closed = false
    ∧ (drive_machine binary_protocol (accept_conn zeroes zeroes)
        (deliver idle (fetch_example.wire binary_protocol ++ List.replicate 24 0))).exit
      = .aborted 146
    ∧ (drive_machine binary_protocol (accept_conn zeroes zeroes)
        (deliver idle (fetch_example.wire binary_protocol ++ List.replicate 24 0))).sock.sent
      = response_header (fetch_example.header binary_protocol)
    ∧ (drive_machine binary_protocol (accept_conn zeroes zeroes)
        (deliver idle (fetch_example.wire binary_protocol ++ List.replicate 24 0))).sock.closed
      = false := by
  decide

/-- C8, evaluated at the failing inputs. A store header that declares 4096
value bytes fails `assert(left < sizeof(buf))` (line 95): `drive_machine`
does not return, and the connection is not closed; the same when the header
arrives behind the valid fetch request, once that request has been answered.
A store request that declares 2049 value bytes, two of them read with the
header and the other 2047 readable, is drained and answered like any
other. -/
theorem oversized_value_not_rejected :
    (drive_machine binary_protocol (accept_conn zeroes zeroes)
        (deliver idle oversized_header)).exit = .aborted 95
    ∧ (drive_machine binary_protocol (accept_conn zeroes zeroes)
        (deliver idle oversized_header)).sock.closed = false
    ∧ (drive_machine binary_protocol (accept_conn zeroes zeroes)
        (deliver idle (fetch_example.wire binary_protocol ++ oversized_header))).exit
      = .aborted 95
    ∧ (drive_machine binary_protocol (accept_conn zeroes zeroes)
        (deliver idle (fetch_example.wire binary_protocol ++ oversized_header))).sock.sent
      = response_header (fetch_example.header binary_protocol)
    ∧ (drive_machine binary_protocol (accept_conn zeroes zeroes)
        (deliver idle (fetch_example.wire binary_protocol ++ oversized_header))).sock.closed
      = false
    ∧ value_len just_over_header = 2049
    ∧ (drive_machine binary_protocol (accept_conn zeroes zeroes)
        (deliver (deliver idle (just_over_header ++ [7, 7])) (List.replicate 2047 7))).exit
      = .returned
    ∧ (drive_machine binary_protocol (accept_conn zeroes zeroes)
        (deliver (deliver idle (just_over_header ++ [7, 7])) (List.replicate 2047 7))).sock.sent
      = response_header just_over_header
    ∧ (drive_machine binary_protocol (accept_conn zeroes zeroes)
        (deliver (deliver idle (just_over_header ++ [7, 7])) (List.replicate 2047 7))).sock.closed
      = false := by
  decide!

/-- C9 fails as stated: one arrival is reported to workers 0 and 1. Worker 0
takes the lock, runs `drive_machine` and unlocks before worker 1 reaches
`try_lock`. Worker 1 then finds the lock free: its `try_lock` returns 1, and
it runs `drive_machine` for the same event. Both workers have called
`drive_machine`. -/
theorem second_worker_drives_too :
    (shared_run binary_protocol (shared_accept zeroes zeroes idle)
        (herd ++ [.step 0, .step 0, .step 0])).pc 1 = .woken
    ∧ (shared_run binary_protocol (shared_accept zeroes zeroes idle)
        (herd ++ [.step 0, .step 0, .step 0])).ran = [0]
    ∧ (try_lock (shared_run binary_protocol (shared_accept zeroes zeroes idle)
        (herd ++ [.step 0, .step 0, .step 0])).lock).1 = 1
    ∧ (shared_run binary_protocol (shared_accept zeroes zeroes idle)
        (herd ++ [.step 0, .step 0, .step 0, .step 1])).pc 1 = .locked
    ∧ (shared_run binary_protocol (shared_accept zeroes zeroes idle)
        (herd ++ [.step 0, .step 0, .step 0, .step 1, .step 1, .step 1])).ran = [0, 1] := by
  decide

/-- C2 at the scenario's input: the store request (`key_len = 3`,
`extra_len = 8`, `body_len = 16`) followed at once by the fetch request, on a
socket that takes the first response in pieces of 10, 3 and 11 bytes. -/
theorem pipelined_requests_answered_in_order_witness :
    (drive_machine binary_protocol (accept_conn zeroes zeroes)
        (deliver trickle (stream binary_protocol [store_example, fetch_example]))).sock.sent
      = [0x81, 1, 0, 3, 8, 0, 0, 1, 0, 0, 0, 0, 1, 2, 3, 4, 0, 0, 0, 0, 0, 0, 0, 0,
         0x81, 0, 0, 3, 0, 0, 0, 1, 0, 0, 0, 0, 5, 6, 7, 8, 0, 0, 0, 0, 0, 0, 0, 0]
    ∧ (drive_machine binary_protocol (accept_conn zeroes zeroes)
        (deliver trickle (stream binary_protocol [store_example, fetch_example]))).conn.state
      = .STATE_HEADER
    ∧ avail_bytes (drive_machine binary_protocol (accept_conn zeroes zeroes)
        (deliver trickle (stream binary_protocol [store_example, fetch_example]))).conn = 0 :=
  have h := pipelined_requests_answered_in_order binary_protocol [store_example, fetch_example]
    zeroes zeroes (deliver trickle (stream binary_protocol [store_example, fetch_example])) []
    (by decide) (by decide) (by decide) rfl (by decide)
  ⟨h.2.1, h.2.2.2.1, h.2.2.2.2.1⟩

/-- C3 at the scenario's input: the fetch request with `key_len = 3`,
`extra_len = 0`, `body_len = 3`, on a socket whose first `send` would block.
The first call returns in `STATE_RESPONSE`. The next call passes the same 24
bytes to `send_exactly` again and they go out: the request's own header with
magic 0x81, status 1 and body length 0. -/
theorem response_is_own_header_witness :
    left_in_response.conn.state = .STATE_RESPONSE
    ∧ (drive_machine binary_protocol left_in_response.conn
        { left_in_response.sock with rx := [], tx := [] }).sock.sent
      = [0x81, 0, 0, 3, 0, 0, 0, 1, 0, 0, 0, 0, 5, 6, 7, 8, 0, 0, 0, 0, 0, 0, 0, 0]
    ∧ ∃ h,
        last_copied none
            [.copied [0x80, 0, 0, 3, 0, 0, 0, 0, 0, 0, 0, 3, 5, 6, 7, 8, 0, 0, 0, 0, 0, 0, 0, 0],
             .offered [0x81, 0, 0, 3, 0, 0, 0, 1, 0, 0, 0, 0, 5, 6, 7, 8, 0, 0, 0, 0, 0, 0, 0, 0]]
          = some h
        ∧ h.length = HEADER_SIZE
        ∧ [0x81, 0, 0, 3, 0, 0, 0, 1, 0, 0, 0, 0, 5, 6, 7, 8, 0, 0, 0, 0, 0, 0, 0, 0]
          = response_header h :=
  ⟨by decide, by decide,
   (response_is_own_header binary_protocol left_in_response.conn
      { left_in_response.sock with rx := [], tx := [] }
      (Trace.driven _ _ [] [] (Trace.accepted zeroes zeroes _ _) (by decide))).1
      [.copied [0x80, 0, 0, 3, 0, 0, 0, 0, 0, 0, 0, 3, 5, 6, 7, 8, 0, 0, 0, 0, 0, 0, 0, 0],
       .offered [0x81, 0, 0, 3, 0, 0, 0, 1, 0, 0, 0, 0, 5, 6, 7, 8, 0, 0, 0, 0, 0, 0, 0, 0]]
      [0x81, 0, 0, 3, 0, 0, 0, 1, 0, 0, 0, 0, 5, 6, 7, 8, 0, 0, 0, 0, 0, 0, 0, 0] []
      (by decide)⟩

/-- C4 at a concrete run: the connection that answered one fetch request and
holds one more byte keeps the cursor invariant. -/
theorem cursor_invariant_witness :
    cursor_ok (drive_machine binary_protocol (accept_conn zeroes zeroes)
      (deliver idle (fetch_example.wire binary_protocol ++ [0x80]))).conn :=
  (cursor_invariant binary_protocol).2.2.2 _ _ ((cursor_invariant binary_protocol).1 _ _)

/-- C6 at a concrete state: after one fetch request the connection waits in
`STATE_HEADER` with `buf_head = 27` and one unread byte, the first of the next
header. The other 23 bytes arrive as 1 byte and then 22 bytes. -/
theorem split_header_reassembled_witness :
    one_byte_left.conn.buf_head = 27 ∧ avail_bytes one_byte_left.conn = 1
    ∧ (feed one_byte_left.conn one_byte_left.sock
        [[0], [0, 3, 0, 0, 0, 0, 0, 0, 0, 3, 5, 6, 7, 8, 0, 0, 0, 0, 0, 0, 0, 0]]).out
      = [0x80, 0, 0, 3, 0, 0, 0, 0, 0, 0, 0, 3, 5, 6, 7, 8, 0, 0, 0, 0, 0, 0, 0, 0] :=
  ⟨by decide, by decide,
   (split_header_reassembled binary_protocol one_byte_left.conn
      (Reachable.driven _ _ (Reachable.accepted zeroes zeroes) (by decide))
      one_byte_left.sock (by decide)
      [[0], [0, 3, 0, 0, 0, 0, 0, 0, 0, 3, 5, 6, 7, 8, 0, 0, 0, 0, 0, 0, 0, 0]]
      (by decide) (by decide) (by decide)).2.2.2⟩

/-- The amended C9 where the two workers do overlap: worker 0 holds the lock
when worker 1 calls `try_lock`. The call returns 0 and worker 1 goes back to
waiting; `drive_machine` has not been called. -/
theorem lock_excludes_workers_witness :
    (try_lock (shared_run binary_protocol (shared_accept zeroes zeroes idle)
        (herd ++ [.step 0])).lock).1 = 0
    ∧ (shared_step binary_protocol (shared_run binary_protocol (shared_accept zeroes zeroes idle)
        (herd ++ [.step 0])) (.step 1)).pc 1 = .waiting
    ∧ (shared_step binary_protocol (shared_run binary_protocol (shared_accept zeroes zeroes idle)
        (herd ++ [.step 0])) (.step 1)).ran = [] :=
  have h := ((lock_excludes_workers binary_protocol zeroes zeroes idle (herd ++ [.step 0]) _
    rfl).2.2.2.1 1 (by decide) (by decide)).2 (by decide)
  ⟨h.1, h.2.2.1, h.2.2.2.2.2.trans (by decide)⟩

end Servers
